import Mathlib

/-!
Verification of the godoxy HTTP rule engine (package `rules`).

Strings from the Go source are modelled as lists of characters (`Str`);
Go byte-level scans over ASCII separators coincide with character-level
scans on valid UTF-8, and rune iteration is character iteration.
Maps (`http.Header`, `url.Values`) are modelled as association lists with
first-match lookup. Functions keep the names of the Go functions they embed.
-/

namespace GoDoxy

abbrev Str := List Char

def toL (s : String) : Str := s.toList

/-- Character constants written via code points to keep literals unambiguous. -/
def lbrace : Char := Char.ofNat 123

def rbrace : Char := Char.ofNat 125

def dollar : Char := '$'

def nulChar : Char := Char.ofNat 0

/-- The `asciiSpace` table from on.go: `'\t' '\n' '\v' '\f' '\r' ' '`. -/
def isAsciiSpace (c : Char) : Bool :=
  c = '\t' || c = '\n' || c = Char.ofNat 11 || c = Char.ofNat 12 || c = '\r' || c = ' '

/-- Go's `unicode.IsSpace`: ASCII spaces plus NEL, NBSP and the Unicode
space separators (Zs, Zl, Zp). -/
def goIsSpace (c : Char) : Bool :=
  isAsciiSpace c ||
  c.toNat = 0x85 || c.toNat = 0xA0 || c.toNat = 0x1680 ||
  (0x2000 ≤ c.toNat && c.toNat ≤ 0x200A) ||
  c.toNat = 0x2028 || c.toNat = 0x2029 || c.toNat = 0x202F ||
  c.toNat = 0x205F || c.toNat = 0x3000

theorem asciiSpace_goIsSpace {c : Char} (h : isAsciiSpace c = true) : goIsSpace c = true := by
  simp [goIsSpace, h]

def trimRightP (p : Char → Bool) (s : Str) : Str :=
  (s.reverse.dropWhile p).reverse

/-- Strip characters satisfying `p` from both ends. -/
def trimP (p : Char → Bool) (s : Str) : Str :=
  trimRightP p (s.dropWhile p)

/-- Go `strings.TrimSpace` (Unicode white space at both ends). -/
def goTrimSpace (s : Str) : Str := trimP goIsSpace s

/-- The trim applied to interior `&`-segments in `splitAnd` (ASCII table only). -/
def asciiTrim (s : Str) : Str := trimP isAsciiSpace s

/-- The `andSeps` table from on.go: `'&'` and `'\n'`. -/
def isAndSep (c : Char) : Bool := c = '&' || c = '\n'

/-- `indexAnd` from on.go: index of the first separator, if any. -/
def indexAnd : Str → Option Nat
  | [] => none
  | c :: rest => if isAndSep c then some 0 else (indexAnd rest).map (· + 1)

/-- `countAnd` from on.go. -/
def countAnd (s : Str) : Nat := (s.filter isAndSep).length

/-- The tail handling of `splitAnd`: `strings.TrimSpace` the remainder,
keep it only when non-empty. -/
def splitAndTail (s : Str) : List Str :=
  let t := goTrimSpace s
  if t = [] then [] else [t]

theorem indexAnd_lt_length {s : Str} {e : Nat} (h : indexAnd s = some e) : e < s.length := by
  induction s generalizing e with
  | nil => simp [indexAnd] at h
  | cons c cs ih =>
    by_cases hc : isAndSep c
    · simp [indexAnd, hc] at h
      simp
      omega
    · simp [indexAnd, hc] at h
      obtain ⟨m, hm, rfl⟩ := h
      have := ih hm
      simp
      omega

/-- The loop of `splitAnd` from on.go, with the `i`, `n` counters of the Go
code made explicit.  Each interior segment is trimmed with the ASCII table
and dropped when empty; the remainder is `strings.TrimSpace`d.  The extra
`fuel` argument makes the recursion structural; it is started at the
separator count, each iteration consumes one separator, and when it reaches
zero no separator is left, so the fallback equals the loop exit. -/
def splitAndGo : Nat → Str → Nat → Nat → List Str
  | 0, s, _, _ => splitAndTail s
  | fuel + 1, s, i, n =>
    if i < n then
      match indexAnd s with
      | none => splitAndTail s
      | some e =>
        if asciiTrim (s.take e) = [] then splitAndGo fuel (s.drop (e + 1)) i n
        else asciiTrim (s.take e) :: splitAndGo fuel (s.drop (e + 1)) (i + 1) n
    else splitAndTail s

/-- `splitAnd` from on.go. -/
def splitAnd (s : Str) : List Str :=
  if s = [] then [] else splitAndGo (countAnd s) s 0 (countAnd s)

/-- Recursive restatement of `splitAnd` without the `i`, `n` counters,
used to reason about the loop. -/
def splitAndSpec (s : Str) : List Str :=
  match h : indexAnd s with
  | none => splitAndTail s
  | some e =>
    have : (s.drop (e + 1)).length < s.length := by
      have he : e < s.length := indexAnd_lt_length h
      simp
      omega
    if asciiTrim (s.take e) = [] then splitAndSpec (s.drop (e + 1))
    else asciiTrim (s.take e) :: splitAndSpec (s.drop (e + 1))
termination_by s.length

/-- State of the rune loop in `expandEnvVarsRaw` (block_parser.go):
the output builder `buf`, the name builder `envVar`, the collected missing
names, and the `inEnvVar` / `expectingBrace` flags. -/
structure ExpandSt where
  out : Str
  envVar : Str
  missing : List Str
  inEnvVar : Bool
  expectingBrace : Bool
deriving DecidableEq

def expandInit : ExpandSt := ⟨[], [], [], false, false⟩

/-- One iteration of the `for _, r := range v` loop of `expandEnvVarsRaw`. -/
def expandStep (lookup : Str → Option Str) (st : ExpandSt) (r : Char) : ExpandSt :=
  let st :=
    if st.expectingBrace && r ≠ lbrace && r ≠ dollar then
      { st with out := st.out ++ [dollar], expectingBrace := false }
    else st
  if r = dollar then
    if st.expectingBrace then { st with out := st.out ++ [dollar], expectingBrace := false }
    else { st with expectingBrace := true }
  else if r = lbrace then
    if st.expectingBrace then { st with inEnvVar := true, expectingBrace := false, envVar := [] }
    else { st with out := st.out ++ [r] }
  else if r = rbrace then
    if st.inEnvVar then
      match lookup st.envVar with
      | some v => { st with out := st.out ++ v, inEnvVar := false }
      | none => { st with missing := st.missing ++ [st.envVar], inEnvVar := false }
    else { st with out := st.out ++ [r] }
  else
    let st :=
      if st.expectingBrace then { st with out := st.out ++ [dollar], expectingBrace := false }
      else st
    if st.inEnvVar then { st with envVar := st.envVar ++ [r] }
    else { st with out := st.out ++ [r] }

def expandLoop (lookup : Str → Option Str) : Str → ExpandSt → ExpandSt
  | [], st => st
  | r :: rest, st => expandLoop lookup rest (expandStep lookup st r)

/-- The epilogue of `expandEnvVarsRaw`: flush a pending `$`, write back an
unterminated env var and report it, report the missing names. -/
def expandFinish (st : ExpandSt) : Str × List Str × Bool :=
  let st := if st.expectingBrace then { st with out := st.out ++ [dollar] } else st
  if st.inEnvVar then (st.out ++ [dollar, lbrace] ++ st.envVar, st.missing, true)
  else (st.out, st.missing, false)

/-- `expandEnvVarsRaw` from block_parser.go.  Returns the expanded string,
the missing env-var names, and whether an unterminated env var was found. -/
def expandEnvVarsRaw (lookup : Str → Option Str) (v : Str) : Str × List Str × Bool :=
  expandFinish (expandLoop lookup v expandInit)

/-- Go map indexing (`http.Header` / `url.Values` are `map[string][]string`),
modelled on association lists with first-match lookup; `none` is a missing
key, whose indexing yields the zero value (`nil` slice, i.e. `[]`). -/
def goMapGet {V : Type} : List (Str × V) → Str → Option V
  | [], _ => none
  | (k, v) :: rest, key => if k = key then some v else goMapGet rest key

/-- The request model needed by the `rewrite` command: `r.URL.Path`,
`r.URL.RawPath`, `r.URL.RawQuery` and `r.RequestURI`. -/
structure GoRequest where
  path : Str
  rawPath : Str
  rawQuery : Str
  requestURI : Str
deriving DecidableEq

/-- The inline `if len(path) > 0 && path[0] != '/' { path = "/" + path }`
from the `rewrite` builder. -/
def withLeadingSlash (p : Str) : Str :=
  match p with
  | [] => []
  | c :: rest => if c = '/' then c :: rest else '/' :: c :: rest

/-- The handler built for `CommandRewrite` (do.go): replace the `orig`
prefix of the (slash-normalised) path by `repl`, clear `RawPath` and
`RequestURI`; otherwise leave the request untouched. -/
def commandRewrite (orig repl : Str) (r : GoRequest) : GoRequest :=
  let path := withLeadingSlash r.path
  if orig.isPrefixOf path then
    { r with path := repl ++ path.drop orig.length, rawPath := [], requestURI := [] }
  else r

/-- The `CheckFunc` built by the `header` matcher (on.go `OnHeader`):
`len(r.Header[k]) > 0` when no value matcher is given, otherwise
`slices.ContainsFunc(r.Header[k], matcher)`.  The map is indexed with the
user-written key, no canonical-key normalisation. -/
def onHeaderCheck (k : Str) (matcher : Option (Str → Bool))
    (hdrs : List (Str × List Str)) : Bool :=
  match matcher with
  | none => decide (0 < ((goMapGet hdrs k).getD []).length)
  | some m => ((goMapGet hdrs k).getD []).any m

/-- `getValueByKeyAtIndex` from vars_dynamic.go.  `stripFragment` is a
string helper from an external package, taken as a parameter.  The result
`none` models the panic of the Go slice access `values[index]` on a
negative index; the code's guard only checks `index < len(values)`. -/
def getValueByKeyAtIndex (stripFragment : Str → Str)
    (values : List (Str × List Str)) (key : Str) (index : Int) : Option Str :=
  match goMapGet values key with
  | some vs =>
    if index < (vs.length : Int) then
      match index with
      | Int.ofNat nIdx => some (stripFragment (vs.getD nIdx []))
      | Int.negSucc _ => none
    else some []
  | none => some []

/-- Go `strconv.Atoi` restricted to what the claims need: optional sign
followed by decimal digits (the 64-bit range check is omitted). -/
def goAtoi (s : Str) : Option Int :=
  match s with
  | [] => none
  | c :: rest =>
    let signed : Bool × Str :=
      if c = '-' then (true, rest) else if c = '+' then (false, rest) else (false, s)
    if signed.2 = [] then none
    else if signed.2.all Char.isDigit then
      let n : Nat := signed.2.foldl (fun acc d => acc * 10 + (d.toNat - 48)) 0
      some (if signed.1 then -(n : Int) else (n : Int))
    else none

inductive ArgErr where
  | expectNoArg
  | invalidArguments
  | expectOneOrTwoArgs
deriving DecidableEq

/-- `getKeyAndIndex` from vars_dynamic.go. -/
def getKeyAndIndex (args : List Str) : Except ArgErr (Str × Int) :=
  match args with
  | [] => .error .expectNoArg
  | [a0] => .ok (a0, 0)
  | [a0, a1] =>
    match goAtoi a1 with
    | none => .error .invalidArguments
    | some idx => .ok (a0, idx)
  | _ => .error .expectOneOrTwoArgs

/-- `PhaseFlag` from phase.go: the `Pre` and `Post` bits. -/
structure PhaseFlag where
  pre : Bool
  post : Bool
deriving DecidableEq

def phaseNone : PhaseFlag := ⟨false, false⟩

def phasePre : PhaseFlag := ⟨true, false⟩

def phasePost : PhaseFlag := ⟨false, true⟩

/-- Bitwise `|` of phase flags. -/
def PhaseFlag.or (a b : PhaseFlag) : PhaseFlag := ⟨a.pre || b.pre, a.post || b.post⟩

/-- `phase.IsPostRule()`: whether the `Post` bit is set. -/
def PhaseFlag.isPostRule (p : PhaseFlag) : Bool := p.post

/-- Classification of the errors a command can return, per the pipeline's
tests: `errTerminateRule`, errors with `isUnexpectedError` true, and the
benign transport-cancel class (`isUnexpectedError` false). -/
inductive RuleErr where
  | terminateRule
  | unexpected
  | benign
deriving DecidableEq

/-- `RuleOn` from on.go: the raw text, the checker (`none` models a nil
checker, which is universally true) and the phase flag.  The checker is a
boolean predicate on the abstract per-request state `σ`. -/
structure RuleOn (σ : Type) where
  raw : Str
  checker : Option (σ → Bool)
  phase : PhaseFlag

/-- `RuleOn.Check`: a nil checker is universally true. -/
def RuleOn.check {σ : Type} (On : RuleOn σ) (s : σ) : Bool :=
  match On.checker with
  | none => true
  | some c => c s

/-- `CommandHandler` from do_types.go: a plain `Handler` (its `HandlerFunc`
is a state transformer that also receives the upstream handler), an
`IfBlockCommand{On, Do}` or an `IfElseBlockCommand{Ifs, Else}`. -/
inductive CommandHandler (σ : Type) where
  | handler (fn : (σ → σ) → σ → σ × Option RuleErr) (phase : PhaseFlag) (terminate : Bool)
  | ifBlock (On : RuleOn σ) (doCmds : List (CommandHandler σ))
  | ifElse (ifs : List (RuleOn σ × List (CommandHandler σ))) (els : List (CommandHandler σ))

mutual

/-- `ServeHTTP` of a single command handler (do_types.go, do_blocks.go).
For `IfElseBlockCommand` the branch loop is `serveIfs`; a `none` result
there means every branch check failed, in which case the `Else` commands
run when present, as in the Go loop epilogue. -/
def CommandHandler.serve {σ : Type} (up : σ → σ) :
    CommandHandler σ → σ → σ × Option RuleErr
  | .handler fn _ _, s => fn up s
  | .ifBlock On doCmds, s =>
    match doCmds with
    | [] => (s, none)
    | _ :: _ =>
      match On.checker with
      | none => serveList up doCmds s
      | some chk => if chk s then serveList up doCmds s else (s, none)
  | .ifElse ifs els, s =>
    match serveIfs up ifs s with
    | some result => result
    | none => if els.length > 0 then serveList up els s else (s, none)

/-- `Commands.ServeHTTP`: run the handlers in order, stopping at the first
error. -/
def serveList {σ : Type} (up : σ → σ) :
    List (CommandHandler σ) → σ → σ × Option RuleErr
  | [], s => (s, none)
  | c :: rest, s =>
    match CommandHandler.serve up c s with
    | (s', none) => serveList up rest s'
    | (s', some e) => (s', some e)

/-- The branch loop of `IfElseBlockCommand.ServeHTTP`: the first branch
with a nil checker or a true check runs and its result is returned (a nil
`Do` returns nil without falling through); `none` reports that no branch
was taken. -/
def serveIfs {σ : Type} (up : σ → σ) :
    List (RuleOn σ × List (CommandHandler σ)) → σ →
      Option (σ × Option RuleErr)
  | [], _ => none
  | (On, doCmds) :: rest, s =>
    match On.checker with
    | none =>
      match doCmds with
      | [] => some (s, none)
      | _ :: _ => some (serveList up doCmds s)
    | some chk =>
      if chk s then
        match doCmds with
        | [] => some (s, none)
        | _ :: _ => some (serveList up doCmds s)
      else serveIfs up rest s

end

mutual

/-- `Phase()` of a command handler (do_types.go, do_blocks.go). -/
def CommandHandler.phase {σ : Type} : CommandHandler σ → PhaseFlag
  | .handler _ p _ => p
  | .ifBlock On doCmds => phaseList doCmds On.phase
  | .ifElse ifs els =>
    let p := phaseIfs ifs phaseNone
    if els.length > 0 then p.or (phaseList els phaseNone) else p

/-- Fold `phase |= cmd.Phase()` over a command list. -/
def phaseList {σ : Type} : List (CommandHandler σ) → PhaseFlag → PhaseFlag
  | [], acc => acc
  | c :: rest, acc => phaseList rest (acc.or (CommandHandler.phase c))

/-- Fold `phase |= br.Phase()` over the branches of an if/else chain. -/
def phaseIfs {σ : Type} :
    List (RuleOn σ × List (CommandHandler σ)) → PhaseFlag → PhaseFlag
  | [], acc => acc
  | (On, doCmds) :: rest, acc => phaseIfs rest (acc.or (phaseList doCmds On.phase))

end

/-- `ruleOnAlwaysTrue` from validate.go: trimmed raw equals `default`, or
the checker is nil. -/
def ruleOnAlwaysTrue {σ : Type} (On : RuleOn σ) : Bool :=
  goTrimSpace On.raw = toL "default" || On.checker.isNone

mutual

/-- `commandTerminatesInPre` from validate.go.  The `ifElse` case inlines
`ifElseBlockTerminatesInPre`: all branches must terminate, a fallback must
exist (`Else` present or an always-true branch), and a present `Else` must
terminate too. -/
def commandTerminatesInPre {σ : Type} : CommandHandler σ → Bool
  | .handler _ _ t => t
  | .ifBlock On doCmds => ruleOnAlwaysTrue On && commandsTerminateInPre doCmds
  | .ifElse ifs els =>
    match ifElseScan ifs (els.length > 0) with
    | none => false
    | some fb =>
      if !fb then false
      else if els.length > 0 && !commandsTerminateInPre els then false
      else true

/-- `commandsTerminateInPre` (`slices.ContainsFunc`). -/
def commandsTerminateInPre {σ : Type} : List (CommandHandler σ) → Bool
  | [] => false
  | c :: rest => commandTerminatesInPre c || commandsTerminateInPre rest

/-- The branch loop of `ifElseBlockTerminatesInPre`: `none` once a branch
body fails to terminate, otherwise carries the `hasFallback` flag. -/
def ifElseScan {σ : Type} :
    List (RuleOn σ × List (CommandHandler σ)) → Bool → Option Bool
  | [], fb => some fb
  | (On, doCmds) :: rest, fb =>
    if commandsTerminateInPre doCmds then ifElseScan rest (fb || ruleOnAlwaysTrue On)
    else none

end

/-- A parsed rule: the name, the `On` condition, the raw do-body
(`Command.raw`) and the pre/post command lists built by `Command.Parse`. -/
structure Rule (σ : Type) where
  name : Str
  On : RuleOn σ
  doRaw : Str
  pre : List (CommandHandler σ)
  post : List (CommandHandler σ)

/-- `isDefaultRule` from validate.go. -/
def isDefaultRule {σ : Type} (rule : Rule σ) : Bool :=
  rule.name = toL "default" || rule.On.raw = toL "default"

/-- `rule.doesTerminateInPre()` from validate.go. -/
def Rule.doesTerminateInPre {σ : Type} (rule : Rule σ) : Bool :=
  commandsTerminateInPre rule.pre

/-- The scheduling loop of `Command.Parse` (do.go): each parsed handler is
appended to the post list iff its `Phase()` has the Post bit set, otherwise
to the pre list. -/
def commandParse {σ : Type} (executors : List (CommandHandler σ)) :
    List (CommandHandler σ) × List (CommandHandler σ) :=
  executors.foldl
    (fun acc e =>
      if (CommandHandler.phase e).isPostRule then (acc.1, acc.2 ++ [e])
      else (acc.1 ++ [e], acc.2))
    ([], [])

/-- The collaborators `Rules.BuildHandler` consumes, as effects on the
abstract per-request state `σ`: the upstream handler, `rm.HasStatus()`,
the `http.Error(..., 500)` write, and `rm.AppendError`. -/
structure Env (σ : Type) where
  up : σ → σ
  hasStatus : σ → Bool
  error500 : σ → σ
  appendError : σ → σ

/-- Trace events: one per `execPreCommand` / `execPostCommand` /
`rule.Do.pre.ServeHTTP` invocation and per upstream-step action, tagged
with the index of the rule in the non-default list. -/
inductive Event where
  | preExec (i : Nat)
  | defaultPre
  | error500
  | upstream
  | postExec (i : Nat)
  | defaultPost
  | postMatcherPre (i : Nat)
  | postMatcherPost (i : Nat)
deriving DecidableEq

/-- The local state of the pre-phase loop of `BuildHandler`: the request
state, the `executedPre`, `terminatedInPre` arrays, the
`matchedNonDefaultPre` / `preTerminated` / `hasError` flags, and the
instrumentation: `matched` records, per rule, whether the
`matchedNonDefaultPre = true` assignment ran for it, and `trace` the
command invocations. -/
structure PreSt (σ : Type) where
  s : σ
  executedPre : List Bool
  terminatedInPre : List Bool
  matched : List Bool
  matchedNonDefaultPre : Bool
  preTerminated : Bool
  hasError : Bool
  trace : List Event

/-- The body of the pre-phase loop for one rule: skip unmatched or
post-phase rules; mark matched rules; after a termination only record
`executedPre` for rules with an empty pre list; otherwise run the pre
commands and fold the error handling. -/
def preStep {σ : Type} (env : Env σ) (rule : Rule σ) (i : Nat) (st : PreSt σ) :
    PreSt σ :=
  if rule.On.phase.isPostRule || !(rule.On.check st.s) then
    { st with executedPre := st.executedPre ++ [false],
              terminatedInPre := st.terminatedInPre ++ [false],
              matched := st.matched ++ [false] }
  else if st.preTerminated then
    { st with matched := st.matched ++ [true], matchedNonDefaultPre := true,
              executedPre := st.executedPre ++ [rule.pre.isEmpty],
              terminatedInPre := st.terminatedInPre ++ [false] }
  else
    match serveList env.up rule.pre st.s with
    | (s', none) =>
      { st with matched := st.matched ++ [true], matchedNonDefaultPre := true,
                s := s', trace := st.trace ++ [.preExec i],
                executedPre := st.executedPre ++ [true],
                terminatedInPre := st.terminatedInPre ++ [false] }
    | (s', some .terminateRule) =>
      { st with matched := st.matched ++ [true], matchedNonDefaultPre := true,
                s := s', trace := st.trace ++ [.preExec i],
                executedPre := st.executedPre ++ [true],
                terminatedInPre := st.terminatedInPre ++ [true],
                preTerminated := true }
    | (s', some .unexpected) =>
      { st with matched := st.matched ++ [true], matchedNonDefaultPre := true,
                s := env.appendError s', trace := st.trace ++ [.preExec i],
                executedPre := st.executedPre ++ [true],
                terminatedInPre := st.terminatedInPre ++ [false],
                hasError := true }
    | (s', some .benign) =>
      { st with matched := st.matched ++ [true], matchedNonDefaultPre := true,
                s := s', trace := st.trace ++ [.preExec i],
                executedPre := st.executedPre ++ [true],
                terminatedInPre := st.terminatedInPre ++ [false],
                hasError := true }

/-- The pre-phase loop (`for i, rule := range nonDefaultRules`). -/
def preLoop {σ : Type} (env : Env σ) : List (Rule σ) → Nat → PreSt σ → PreSt σ
  | [], _, st => st
  | rule :: rest, i, st => preLoop env rest (i + 1) (preStep env rule i st)

/-- Result of the default-rule fallback step. -/
structure DefaultOut (σ : Type) where
  s : σ
  defaultExecutedPre : Bool
  defaultTerminatedInPre : Bool
  hasError : Bool
  trace : List Event

/-- The default-rule fallback: run only when no non-default pre rule
matched, the default `On` is not a post rule and its check passes. -/
def defaultStep {σ : Type} (env : Env σ) (dr : Option (Rule σ)) (st : PreSt σ) :
    DefaultOut σ :=
  match dr with
  | none => ⟨st.s, false, false, st.hasError, []⟩
  | some d =>
    if !st.matchedNonDefaultPre && !d.On.phase.isPostRule && d.On.check st.s then
      match serveList env.up d.pre st.s with
      | (s', none) => ⟨s', true, false, st.hasError, [.defaultPre]⟩
      | (s', some .terminateRule) => ⟨s', true, true, st.hasError, [.defaultPre]⟩
      | (s', some .unexpected) => ⟨env.appendError s', true, false, true, [.defaultPre]⟩
      | (s', some .benign) => ⟨s', true, false, true, [.defaultPre]⟩
    else ⟨st.s, false, false, st.hasError, []⟩

/-- The upstream step: when no status was written, respond 500 on a
recorded error, otherwise call the upstream handler. -/
def upstreamStep {σ : Type} (env : Env σ) (hasError : Bool) (s : σ) : σ × List Event :=
  if !(env.hasStatus s) then
    if hasError then (env.error500 s, [Event.error500]) else (env.up s, [Event.upstream])
  else (s, [])

/-- The post loop over matched rules: run the post commands of every rule
that executed in pre and did not terminate there. -/
def postLoop {σ : Type} (env : Env σ) :
    List (Rule σ) → List Bool → List Bool → Nat → σ → σ × List Event
  | rule :: rest, ep :: eps, tp :: tps, i, s =>
    if !ep || tp then postLoop env rest eps tps (i + 1) s
    else
      match serveList env.up rule.post s with
      | (s', none) =>
        let next := postLoop env rest eps tps (i + 1) s'
        (next.1, Event.postExec i :: next.2)
      | (s', some .terminateRule) =>
        let next := postLoop env rest eps tps (i + 1) s'
        (next.1, Event.postExec i :: next.2)
      | (s', some .unexpected) =>
        let next := postLoop env rest eps tps (i + 1) (env.appendError s')
        (next.1, Event.postExec i :: next.2)
      | (s', some .benign) =>
        let next := postLoop env rest eps tps (i + 1) s'
        (next.1, Event.postExec i :: next.2)
  | _, _, _, _, s => (s, [])

/-- The default rule's post commands: run iff its pre ran and did not
terminate in pre. -/
def defaultPostStep {σ : Type} (env : Env σ) (dr : Option (Rule σ))
    (dep dtp : Bool) (s : σ) : σ × List Event :=
  match dr with
  | some d =>
    if dep && !dtp then
      match serveList env.up d.post s with
      | (s', some .unexpected) => (env.appendError s', [Event.defaultPost])
      | (s', _) => (s', [Event.defaultPost])
    else (s, [])
  | none => (s, [])

/-- The post-matcher loop: rules whose `On` has the Post bit are checked
against the now-populated response and run both their pre-parsed and post
commands; `errTerminateRule` from the pre part skips that rule's post. -/
def postMatcherLoop {σ : Type} (env : Env σ) :
    List (Rule σ) → Nat → σ → σ × List Event
  | [], _, s => (s, [])
  | rule :: rest, i, s =>
    if !rule.On.phase.isPostRule || !(rule.On.check s) then
      postMatcherLoop env rest (i + 1) s
    else
      let runPost := fun (s1 : σ) =>
        match serveList env.up rule.post s1 with
        | (s2, some .unexpected) =>
          let next := postMatcherLoop env rest (i + 1) (env.appendError s2)
          (next.1, Event.postMatcherPre i :: Event.postMatcherPost i :: next.2)
        | (s2, _) =>
          let next := postMatcherLoop env rest (i + 1) s2
          (next.1, Event.postMatcherPre i :: Event.postMatcherPost i :: next.2)
      match serveList env.up rule.pre s with
      | (s1, some .terminateRule) =>
        let next := postMatcherLoop env rest (i + 1) s1
        (next.1, Event.postMatcherPre i :: next.2)
      | (s1, some .unexpected) => runPost (env.appendError s1)
      | (s1, some .benign) => runPost s1
      | (s1, none) => runPost s1

/-- The instrumented outcome of one request through the handler built by
`BuildHandler`: the Go locals of the closure plus the per-phase traces. -/
structure RunResult (σ : Type) where
  finalState : σ
  matched : List Bool
  executedPre : List Bool
  terminatedInPre : List Bool
  matchedNonDefaultPre : Bool
  preTerminated : Bool
  hasError : Bool
  statePreDone : σ
  defaultExecutedPre : Bool
  defaultTerminatedInPre : Bool
  preTrace : List Event
  defTrace : List Event
  midTrace : List Event
  postTrace : List Event
  defPostTrace : List Event
  pmTrace : List Event

/-- The full trace, phases in execution order. -/
def RunResult.trace {σ : Type} (r : RunResult σ) : List Event :=
  r.preTrace ++ r.defTrace ++ r.midTrace ++ r.postTrace ++ r.defPostTrace ++ r.pmTrace

/-- `defaultRule` selection in `BuildHandler`: the last default wins. -/
def lastDefault {σ : Type} (rules : List (Rule σ)) : Option (Rule σ) :=
  rules.foldl (fun acc r => if isDefaultRule r then some r else acc) none

/-- The non-default rules, in order. -/
def nonDefaultRules {σ : Type} (rules : List (Rule σ)) : List (Rule σ) :=
  rules.filter (fun r => !isDefaultRule r)

/-- The closure installed by `Rules.BuildHandler` (lines 1285-1405),
instrumented with the trace and the loop flags. -/
def runPipeline {σ : Type} (env : Env σ) (rules : List (Rule σ)) (s0 : σ) :
    RunResult σ :=
  let dr := lastDefault rules
  let nds := nonDefaultRules rules
  let st := preLoop env nds 0 ⟨s0, [], [], [], false, false, false, []⟩
  let dOut := defaultStep env dr st
  let mid := upstreamStep env dOut.hasError dOut.s
  let postT := postLoop env nds st.executedPre st.terminatedInPre 0 mid.1
  let dpostT := defaultPostStep env dr dOut.defaultExecutedPre dOut.defaultTerminatedInPre postT.1
  let pmT := postMatcherLoop env nds 0 dpostT.1
  ⟨pmT.1, st.matched, st.executedPre, st.terminatedInPre, st.matchedNonDefaultPre,
   st.preTerminated, dOut.hasError, st.s, dOut.defaultExecutedPre,
   dOut.defaultTerminatedInPre, st.trace, dOut.trace, mid.2, postT.2, dpostT.2, pmT.2⟩

/-- The pre-loop output inside `runPipeline`, named for the proofs. -/
def pipePreSt {σ : Type} (env : Env σ) (rules : List (Rule σ)) (s0 : σ) : PreSt σ :=
  preLoop env (nonDefaultRules rules) 0 ⟨s0, [], [], [], false, false, false, []⟩

/-- What `BuildHandler` returns: the upstream handler itself on the early
returns, otherwise the pipeline closure. -/
inductive BuiltHandler (σ : Type) where
  | identity
  | wrapped (run : σ → RunResult σ)

def BuiltHandler.isIdentity {σ : Type} : BuiltHandler σ → Bool
  | .identity => true
  | .wrapped _ => false

/-- `Rules.BuildHandler`: empty rule sets, and rule sets with no
non-default rule whose default (if any) has raw do-body `upstream`, return
the upstream handler unchanged. -/
def buildHandler {σ : Type} (env : Env σ) (rules : List (Rule σ)) : BuiltHandler σ :=
  if rules.isEmpty then .identity
  else if (nonDefaultRules rules).isEmpty then
    match lastDefault rules with
    | none => .identity
    | some d =>
      if d.doRaw = toL "upstream" then .identity
      else .wrapped (runPipeline env rules)
  else .wrapped (runPipeline env rules)

/-- Whether the two-character sequence `a b` occurs in a string. -/
def hasPair (a b : Char) : Str → Bool
  | x :: y :: rest => (x = a && y = b) || hasPair a b (y :: rest)
  | _ => false

/-- Whether the three-character sequence `a b c` occurs in a string. -/
def hasTriple (a b c : Char) : Str → Bool
  | x :: y :: z :: rest => (x = a && y = b && z = c) || hasTriple a b c (y :: z :: rest)
  | _ => false

/-- A concrete environment over `σ := Nat` used to instantiate the
pipeline theorems on closed inputs. -/
def witEnv : Env Nat :=
  ⟨fun s => s + 1, fun _ => false, fun s => s + 100, fun s => s + 1000⟩

/-- A two-rule set with a matching non-default rule and a default rule. -/
def c1Rules : List (Rule Nat) :=
  [⟨toL "r0", ⟨toL "path /a", some (fun _ => true), phasePre⟩, toL "set x y",
     [.handler (fun _ s => (s + 2, none)) phasePre false], []⟩,
   ⟨toL "default", ⟨toL "default", none, phaseNone⟩, toL "error 403 x",
     [.handler (fun _ s => (s + 3, none)) phasePre false], []⟩]

/-- A matching rule whose single pre command terminates the pre phase. -/
def c2Rule0 : Rule Nat :=
  ⟨toL "r0", ⟨toL "path /a", some (fun _ => true), phasePre⟩, toL "error 403 x",
   [.handler (fun _ s => (s, some .terminateRule)) phasePre true], []⟩

/-- A matching rule with an empty pre list and one post command. -/
def c2Rule1 : Rule Nat :=
  ⟨toL "r1", ⟨toL "path /b", some (fun _ => true), phasePre⟩, toL "log acc p x",
   [], [.handler (fun _ s => (s + 7, none)) phasePost false]⟩

/-- The rule set exercising termination followed by a post-only rule. -/
def c2Rules : List (Rule Nat) := [c2Rule0, c2Rule1]

/-- Character constants for the quoting machinery, by code point. -/
def bslashC : Char := Char.ofNat 92

def dquoteC : Char := Char.ofNat 34

def squoteC : Char := Char.ofNat 39

def backquoteC : Char := Char.ofNat 96

/-- `forEachPipePart` from on.go, fused with the appending callback of
`splitPipe`: scan byte-wise, skipping the byte after a backslash, tracking
the `quote` and `brackets` state; a bar at top level ends the current
segment, which is kept after `strings.TrimSpace` when non-empty. -/
def pipeSplitGo : Str → Option Char → Nat → Str → List Str → List Str
  | [], _, _, cur, acc =>
    if goTrimSpace cur = [] then acc else acc ++ [goTrimSpace cur]
  | c :: rest, quote, brackets, cur, acc =>
    if c = bslashC then
      match rest with
      | [] => pipeSplitGo [] quote brackets (cur ++ [bslashC]) acc
      | d :: rest2 => pipeSplitGo rest2 quote brackets (cur ++ [bslashC, d]) acc
    else if c = dquoteC ∨ c = squoteC ∨ c = backquoteC then
      if quote = none ∧ brackets = 0 then pipeSplitGo rest (some c) brackets (cur ++ [c]) acc
      else if some c = quote then pipeSplitGo rest none brackets (cur ++ [c]) acc
      else pipeSplitGo rest quote brackets (cur ++ [c]) acc
    else if c = '(' then pipeSplitGo rest quote (brackets + 1) (cur ++ [c]) acc
    else if c = ')' then
      pipeSplitGo rest quote (if brackets > 0 then brackets - 1 else brackets)
        (cur ++ [c]) acc
    else if c = '|' then
      if quote = none ∧ brackets = 0 then
        pipeSplitGo rest quote brackets []
          (acc ++ if goTrimSpace cur = [] then [] else [goTrimSpace cur])
      else pipeSplitGo rest quote brackets (cur ++ [c]) acc
    else pipeSplitGo rest quote brackets (cur ++ [c]) acc

/-- `splitPipe` from on.go. -/
def splitPipe (s : Str) : List Str :=
  if s = [] then [] else pipeSplitGo s none 0 [] []

/-- Outcome of the first scan of `parseSimple`: a special byte (backslash,
dollar, quote, tab, CR, LF) rejects the fast path; an unbalanced `)` or a
positive final depth is the bracket error; otherwise proceed. -/
inductive ScanOut where
  | notOk
  | errBrackets
  | proceed

def simpleScan : Str → Nat → ScanOut
  | [], b => if b = 0 then .proceed else .errBrackets
  | c :: rest, b =>
    if c = bslashC ∨ c = dollar ∨ c = dquoteC ∨ c = squoteC ∨ c = backquoteC ∨
        c = '\t' ∨ c = '\r' ∨ c = '\n' then .notOk
    else if c = '(' then simpleScan rest (b + 1)
    else if c = ')' then (if b = 0 then .errBrackets else simpleScan rest (b - 1))
    else simpleScan rest b

/-- Split on `' '` dropping empty fields, as the index loops of
`parseSimple` do. -/
def fieldsGo : Str → Str → List Str
  | [], cur => if cur = [] then [] else [cur.reverse]
  | c :: rest, cur =>
    if c = ' ' then
      if cur = [] then fieldsGo rest [] else cur.reverse :: fieldsGo rest []
    else fieldsGo rest (c :: cur)

def fieldsSp (v : Str) : List Str := fieldsGo v []

/-- Result of `parseSimple` from parser.go: `notOk` falls back to the full
parser; the fast path yields the first space-separated field as subject
(empty when the input is blank) and the rest as args. -/
inductive SimpleOut where
  | notOk
  | errBrackets
  | Ok (subject : Str) (args : List Str)

def parseSimple (v : Str) : SimpleOut :=
  match simpleScan v 0 with
  | .notOk => .notOk
  | .errBrackets => .errBrackets
  | .proceed =>
    match fieldsSp v with
    | [] => .Ok [] []
    | subj :: args => .Ok subj args

/-- `escapedChars` from parser.go: an unknown escape keeps the backslash. -/
def escMap (r : Char) : Str :=
  if r = 'n' then ['\n']
  else if r = 't' then ['\t']
  else if r = 'r' then ['\r']
  else if r = squoteC then [squoteC]
  else if r = dquoteC then [dquoteC]
  else if r = bslashC then [bslashC]
  else if r = ' ' then [' ']
  else [bslashC, r]

/-- Go strings are byte strings; committed parts of `parse` are modeled as
byte lists because `flush` can slice in the middle of a rune. -/
abbrev Bytes := List Nat

/-- UTF-8 encoding of one rune, as Go's `WriteRune` produces it. -/
def utf8Encode (c : Char) : Bytes :=
  if c.toNat < 0x80 then [c.toNat]
  else if c.toNat < 0x800 then
    [0xC0 + c.toNat / 0x40, 0x80 + c.toNat % 0x40]
  else if c.toNat < 0x10000 then
    [0xE0 + c.toNat / 0x1000, 0x80 + (c.toNat / 0x40) % 0x40, 0x80 + c.toNat % 0x40]
  else
    [0xF0 + c.toNat / 0x40000, 0x80 + (c.toNat / 0x1000) % 0x40,
     0x80 + (c.toNat / 0x40) % 0x40, 0x80 + c.toNat % 0x40]

/-- The UTF-8 bytes of a rune string. -/
def strBytes : Str → Bytes
  | [] => []
  | c :: rest => utf8Encode c ++ strBytes rest

/-- Last element of a non-empty rune list. -/
def lastChar (c : Char) : Str → Char
  | [] => c
  | d :: ds => lastChar d ds

/-- The mutable locals of the full `parse` from parser.go.  The builder
`buf` only ever receives whole runes (`WriteRune`/`WriteString`), so it is
kept as a rune string; `subject` and `args` are byte strings, as `flush`
slices them at byte offsets. -/
structure PSt where
  buf : Str
  subject : Bytes
  args : List Bytes
  escaped : Bool
  quote : Option Char
  brackets : Nat
  envVar : Str
  missing : List Str
  inEnvVar : Bool
  expectingBrace : Bool

/-- Commit a part: the first committed part becomes the subject (Go tests
`subject == ""`), later ones become args; the buffer is reset. -/
def commitPart (part : Bytes) (st : PSt) : PSt :=
  if st.subject = [] then { st with subject := part, buf := [] }
  else { st with args := st.args ++ [part], buf := [] }

/-- The `flush` closure of `parse`.  For an unquoted part Go advances
`beg = i + 1` where `i` is the BYTE offset of each leading white-space
rune, so `part[beg:]` keeps the continuation bytes of a multibyte space
(e.g. U+00A0 leaves `0xA0`); the early return (`beg == len(part)`, no
buffer reset) therefore fires only when the trimmed remainder is
byte-empty: all leading runes are spaces and the last one is single-byte. -/
def flushP (quoted : Bool) (st : PSt) : PSt :=
  if quoted then commitPart (strBytes st.buf) st
  else
    match st.buf.takeWhile goIsSpace with
    | [] => if st.buf = [] then st else commitPart (strBytes st.buf) st
    | c :: cs =>
      if (utf8Encode (lastChar c cs)).drop 1 ++ strBytes (st.buf.dropWhile goIsSpace)
          = [] then st
      else
        commitPart ((utf8Encode (lastChar c cs)).drop 1 ++
          strBytes (st.buf.dropWhile goIsSpace)) st

/-- One rune of the `parse` loop: `early` is the immediate return on an
unbalanced `)`, `panicked` the out-of-range index into the 256-entry
`quoteChars` table for an unescaped rune at or above U+0100. -/
inductive ParseStepOut where
  | cont (st : PSt)
  | early (st : PSt)
  | panicked

def parseStep (lookup : Str → Option Str) (r : Char) (st0 : PSt) : ParseStepOut :=
  if st0.escaped then
    .cont { st0 with buf := st0.buf ++ escMap r, escaped := false }
  else
    let st := if st0.expectingBrace ∧ r ≠ lbrace ∧ r ≠ dollar then
      { st0 with buf := st0.buf ++ [dollar], expectingBrace := false } else st0
    if 256 ≤ r.toNat then .panicked
    else if r = dquoteC ∨ r = squoteC ∨ r = backquoteC then
      if st.quote = none ∧ st.brackets = 0 then .cont (flushP false { st with quote := some r })
      else if some r = st.quote then .cont (flushP true { st with quote := none })
      else .cont { st with buf := st.buf ++ [r] }
    else if r = bslashC then .cont { st with escaped := true }
    else if r = dollar then
      if st.expectingBrace then
        .cont { st with buf := st.buf ++ [dollar], expectingBrace := false }
      else .cont { st with expectingBrace := true }
    else if r = lbrace then
      if st.expectingBrace then
        .cont { st with inEnvVar := true, expectingBrace := false, envVar := [] }
      else .cont { st with buf := st.buf ++ [lbrace] }
    else if r = rbrace then
      if st.inEnvVar then
        match lookup st.envVar with
        | none => .cont { st with missing := st.missing ++ [st.envVar], inEnvVar := false }
        | some ev => .cont { st with buf := st.buf ++ ev, inEnvVar := false }
      else .cont { st with buf := st.buf ++ [rbrace] }
    else if r = '(' then .cont { st with brackets := st.brackets + 1, buf := st.buf ++ ['('] }
    else if r = ')' then
      if st.brackets = 0 then .early st
      else .cont { st with brackets := st.brackets - 1, buf := st.buf ++ [')'] }
    else if r = ' ' then
      if st.quote = none then .cont (flushP false st)
      else .cont { st with buf := st.buf ++ [' '] }
    else
      let st2 := if st.expectingBrace then
        { st with buf := st.buf ++ [dollar], expectingBrace := false } else st
      if st2.inEnvVar then .cont { st2 with envVar := st2.envVar ++ [r] }
      else .cont { st2 with buf := st2.buf ++ [r] }

/-- The rune loop of `parse`; the Bool marks the early bracket-error
return. -/
def parseLoop (lookup : Str → Option Str) : Str → PSt → Option (PSt × Bool)
  | [], st => some (st, false)
  | r :: rest, st =>
    match parseStep lookup r st with
    | .panicked => none
    | .early st2 => some (st2, true)
    | .cont st2 => parseLoop lookup rest st2

/-- `parse` from parser.go, reduced to what `matcherSignature` consumes:
the subject bytes, the arg bytes, and whether `err != nil` (any of the
unterminated errors or a missing environment variable); `none` models the
panic.  The fast-path slices split at ASCII spaces, so their byte content
is the encoding of their runes. -/
def parseFull (lookup : Str → Option Str) (v : Str) : Option (Bytes × List Bytes × Bool) :=
  match parseSimple v with
  | .Ok subj args => some (strBytes subj, args.map strBytes, false)
  | .errBrackets => some ([], [], true)
  | .notOk =>
    match parseLoop lookup v ⟨[], [], [], false, none, 0, [], [], false, false⟩ with
    | none => none
    | some (st, true) => some (st.subject, st.args, true)
    | some (st0, false) =>
      let st := if st0.expectingBrace then { st0 with buf := st0.buf ++ [dollar] } else st0
      if st.quote ≠ none then some (st.subject, st.args, true)
      else if st.brackets ≠ 0 then some (st.subject, st.args, true)
      else if st.inEnvVar then some (st.subject, st.args, true)
      else
        some ((flushP false st).subject, (flushP false st).args,
          !(flushP false st).missing.isEmpty)

/-- Go string comparison (bytewise), on byte strings. -/
def ltBytes : Bytes → Bytes → Bool
  | [], [] => false
  | [], _ :: _ => true
  | _ :: _, [] => false
  | a :: as, b :: bs =>
    if a < b then true
    else if b < a then false
    else ltBytes as bs

def insertBytes (x : Bytes) : List Bytes → List Bytes
  | [] => [x]
  | y :: ys => if ltBytes x y then x :: y :: ys else y :: insertBytes x ys

/-- `slices.Sort` on strings (the sorted order is algorithm-independent). -/
def sortBytes : List Bytes → List Bytes
  | [] => []
  | x :: xs => insertBytes x (sortBytes xs)

/-- `slices.Compact`: drop adjacent duplicates. -/
def compactBytes : List Bytes → List Bytes
  | [] => []
  | [x] => [x]
  | x :: y :: rest =>
    if x = y then compactBytes (y :: rest) else x :: compactBytes (y :: rest)

def joinSepB (b : Nat) (l : List Bytes) : Bytes := List.intercalate [b] l

/-- The inner atom loop of `matcherSignature`: each OR atom is parsed and
canonicalised to `subject ++ " " ++ join args with NUL` (all at the byte
level); a parse error or empty subject invalidates the whole signature, a
parse panic propagates. -/
def canonOrAtoms (lookup : Str → Option Str) :
    List Str → List Bytes → Option (Option (List Bytes))
  | [], acc => some (some acc)
  | atom :: rest, acc =>
    match parseFull lookup (goTrimSpace atom) with
    | none => none
    | some (subj, args, e) =>
      if e || subj.isEmpty then some none
      else canonOrAtoms lookup rest (acc ++ [subj ++ 32 :: joinSepB 0 args])

/-- The AND-part loop of `matcherSignature`: empty pipe splits are skipped,
each group is sorted, deduplicated and parenthesised. -/
def sigAndLoop (lookup : Str → Option Str) :
    List Str → List Bytes → Option (Option (List Bytes))
  | [], acc => some (some acc)
  | andPart :: rest, acc =>
    match splitPipe andPart with
    | [] => sigAndLoop lookup rest acc
    | orParts =>
      match canonOrAtoms lookup orParts [] with
      | none => none
      | some none => some none
      | some (some canonOr) =>
        sigAndLoop lookup rest
          (acc ++ [40 :: (joinSepB 124 (compactBytes (sortBytes canonOr)) ++ [41])])

/-- `matcherSignature` from validate.go: `none` is a panic inside `parse`,
`some none` the `ok = false` return, `some (some sig)` the canonical
signature (a byte string).  A blank matcher is the unconditional
`(any)`. -/
def matcherSignature (lookup : Str → Option Str) (raw0 : Str) : Option (Option Bytes) :=
  if goTrimSpace raw0 = [] then some (some (strBytes (toL "(any)")))
  else
    match splitAnd (goTrimSpace raw0) with
    | [] => some none
    | andParts =>
      match sigAndLoop lookup andParts [] with
      | none => none
      | some none => some none
      | some (some canonAnd) =>
        match compactBytes (sortBytes canonAnd) with
        | [] => some none
        | c => some (some (joinSepB 38 c))

/-- `fmt.Sprintf("rule[%d]", i)`. -/
def autoRuleName (i : Nat) : Str :=
  'r' :: 'u' :: 'l' :: 'e' :: '[' :: (Nat.toDigits 10 i ++ [']'])

/-- The renaming pass of `Rules.Validate`: empty names become `rule[i]`. -/
def renameOne {σ : Type} (i : Nat) (r : Rule σ) : Rule σ :=
  if r.name = [] then { r with name := autoRuleName i } else r

def renameRules {σ : Type} : List (Rule σ) → Nat → List (Rule σ)
  | [], _ => []
  | r :: rest, i => renameOne i r :: renameRules rest (i + 1)

/-- The inner `j` loop of the dead-rule scan: the first later rule that is
not default, not post-phase, and has the same signature; `none` is a
signature panic, `some none` no hit. -/
def findDeadInner {σ : Type} (lookup : Str → Option Str) (sig1 : Bytes) :
    List (Rule σ) → Nat → Option (Option Nat)
  | [], _ => some none
  | r2 :: rest, j =>
    if isDefaultRule r2 || r2.On.phase.isPostRule then findDeadInner lookup sig1 rest (j + 1)
    else
      match matcherSignature lookup r2.On.raw with
      | none => none
      | some none => findDeadInner lookup sig1 rest (j + 1)
      | some (some sig2) =>
        if sig2 = sig1 then some (some j) else findDeadInner lookup sig1 rest (j + 1)

/-- The outer `i` loop of the dead-rule scan of `Rules.Validate`. -/
def findDeadOuter {σ : Type} (lookup : Str → Option Str) :
    List (Rule σ) → Nat → Option (Option (Nat × Nat))
  | [], _ => some none
  | r1 :: rest, i =>
    if isDefaultRule r1 || r1.On.phase.isPostRule || !r1.doesTerminateInPre then
      findDeadOuter lookup rest (i + 1)
    else
      match matcherSignature lookup r1.On.raw with
      | none => none
      | some none => findDeadOuter lookup rest (i + 1)
      | some (some sig1) =>
        match findDeadInner lookup sig1 rest (i + 1) with
        | none => none
        | some (some j) => some (some (i, j))
        | some none => findDeadOuter lookup rest (i + 1)

/-- The observable outcome of `Rules.Validate`. -/
inductive ValidateOut where
  | panicked
  | errMultipleDefaults (n : Nat)
  | errDeadRule (i j : Nat)
  | ok
deriving DecidableEq

/-- `Rules.Validate`: count default rules (the renaming of empty names
never produces `default`), fail on more than one, then run the dead-rule
scan on the renamed rules. -/
def rulesValidate {σ : Type} (lookup : Str → Option Str) (rules : List (Rule σ)) :
    ValidateOut :=
  if (rules.filter (fun r => isDefaultRule r)).length > 1 then
    .errMultipleDefaults (rules.filter (fun r => isDefaultRule r)).length
  else
    match findDeadOuter lookup (renameRules rules 0) 0 with
    | none => .panicked
    | some (some (i, j)) => .errDeadRule i j
    | some none => .ok

/-- The claim's dead-pair relation, following the spec's words: indices
`i < j` of non-default, non-post rules with the same canonical matcher
signature where rule `i` terminates in the pre phase. -/
def deadPairAt {σ : Type} (lookup : Str → Option Str) (rules : List (Rule σ))
    (i j : Nat) : Prop :=
  i < j ∧ ∃ r1 r2, rules[i]? = some r1 ∧ rules[j]? = some r2 ∧
    isDefaultRule r1 = false ∧ r1.On.phase.isPostRule = false ∧
    r1.doesTerminateInPre = true ∧
    isDefaultRule r2 = false ∧ r2.On.phase.isPostRule = false ∧
    ∃ sig, matcherSignature lookup r1.On.raw = some (some sig) ∧
      matcherSignature lookup r2.On.raw = some (some sig)

/-- A shared matcher for the validation examples. -/
def c3On : RuleOn Nat := ⟨toL "path /a", some (fun _ => true), phasePre⟩

/-- A rule on `path /a` that terminates in pre. -/
def c3RuleA : Rule Nat :=
  ⟨toL "a", c3On, toL "error 403 x",
   [.handler (fun _ s => (s, some .terminateRule)) phasePre true], []⟩

/-- A second rule on the same matcher, shadowed by `c3RuleA`. -/
def c3RuleB : Rule Nat := ⟨toL "b", c3On, toL "log acc p x", [], []⟩

def c3Rules : List (Rule Nat) := [c3RuleA, c3RuleB]

/-- A default rule (by name). -/
def c3DefRule1 : Rule Nat :=
  ⟨toL "default", ⟨toL "default", none, phaseNone⟩, toL "error 403 x", [], []⟩

/-- A second default rule (by matcher raw). -/
def c3DefRule2 : Rule Nat :=
  ⟨toL "d2", ⟨toL "default", none, phaseNone⟩, toL "bypass", [], []⟩

/-- A rule set with a dead pair and two default rules. -/
def c3BadRules : List (Rule Nat) := [c3RuleA, c3RuleB, c3DefRule1, c3DefRule2]

theorem countAnd_zero_iff {s : Str} : countAnd s = 0 ↔ indexAnd s = none := by
  induction s with
  | nil => simp [countAnd, indexAnd]
  | cons c cs ih =>
    by_cases hc : isAndSep c
    · simp [countAnd, indexAnd, hc] at *
    · simp [countAnd, indexAnd, hc] at *
      exact ih

theorem countAnd_drop {s : Str} {e : Nat} (h : indexAnd s = some e) :
    countAnd s = countAnd (s.drop (e + 1)) + 1 := by
  induction s generalizing e with
  | nil => simp [indexAnd] at h
  | cons c cs ih =>
    by_cases hc : isAndSep c
    · simp [indexAnd, hc] at h
      subst h
      simp [countAnd, hc]
    · simp [indexAnd, hc] at h
      obtain ⟨m, hm, rfl⟩ := h
      simp [countAnd, hc] at *
      exact ih hm

theorem splitAndGo_none {s : Str} (fuel i n : Nat) (he : indexAnd s = none) :
    splitAndGo fuel s i n = splitAndTail s := by
  cases fuel with
  | zero => rfl
  | succ f =>
    rw [splitAndGo]
    by_cases hin : i < n
    · rw [if_pos hin, he]
    · rw [if_neg hin]

theorem splitAndSpec_none {s : Str} (he : indexAnd s = none) :
    splitAndSpec s = splitAndTail s := by
  rw [splitAndSpec.eq_def]
  split
  · rfl
  · rename_i e he2
    rw [he] at he2
    exact absurd he2 (by simp)

theorem splitAndSpec_some_empty {s : Str} {e : Nat}
    (he : indexAnd s = some e) (hseg : asciiTrim (s.take e) = []) :
    splitAndSpec s = splitAndSpec (s.drop (e + 1)) := by
  rw [splitAndSpec.eq_def]
  split
  · rename_i he2; rw [he] at he2; exact absurd he2 (by simp)
  · rename_i e2 he2
    rw [he] at he2
    injection he2 with he2
    subst he2
    simp [hseg]

theorem splitAndSpec_some_cons {s : Str} {e : Nat}
    (he : indexAnd s = some e) (hseg : asciiTrim (s.take e) ≠ []) :
    splitAndSpec s = asciiTrim (s.take e) :: splitAndSpec (s.drop (e + 1)) := by
  rw [splitAndSpec.eq_def]
  split
  · rename_i he2; rw [he] at he2; exact absurd he2 (by simp)
  · rename_i e2 he2
    rw [he] at he2
    injection he2 with he2
    subst he2
    simp [hseg]

theorem splitAndGo_eq_spec : ∀ (fuel : Nat) (s : Str) (i n : Nat),
    countAnd s ≤ fuel → countAnd s ≤ n - i →
    splitAndGo fuel s i n = splitAndSpec s := by
  intro fuel
  induction fuel with
  | zero =>
    intro s i n hf _
    have he : indexAnd s = none := countAnd_zero_iff.mp (by omega)
    rw [splitAndGo_none 0 i n he, splitAndSpec_none he]
  | succ f ih =>
    intro s i n hf h
    cases he : indexAnd s with
    | none => rw [splitAndGo_none (f + 1) i n he, splitAndSpec_none he]
    | some e =>
      have hc := countAnd_drop he
      have hin : i < n := by omega
      rw [splitAndGo, if_pos hin, he]
      dsimp only
      by_cases hseg : asciiTrim (s.take e) = []
      · rw [if_pos hseg, splitAndSpec_some_empty he hseg]
        exact ih _ i n (by omega) (by omega)
      · rw [if_neg hseg, splitAndSpec_some_cons he hseg]
        rw [ih _ (i + 1) n (by omega) (by omega)]

theorem splitAnd_eq_spec (s : Str) : splitAnd s = splitAndSpec s := by
  by_cases hs : s = []
  · subst hs
    rw [splitAnd, splitAndSpec_none (by simp [indexAnd])]
    simp [splitAndTail, goTrimSpace, trimP, trimRightP]
  · rw [splitAnd, if_neg hs]
    exact splitAndGo_eq_spec (countAnd s) s 0 (countAnd s) (by omega) (by omega)

theorem dropWhileCongr {p q : Char → Bool} : ∀ {s : Str}, (∀ c ∈ s, p c = q c) →
    s.dropWhile p = s.dropWhile q
  | [], _ => rfl
  | c :: rest, h => by
    have hc : p c = q c := h c (by simp)
    by_cases hpc : p c = true
    · rw [List.dropWhile_cons_of_pos hpc, List.dropWhile_cons_of_pos (hc ▸ hpc)]
      exact dropWhileCongr fun d hd => h d (by simp [hd])
    · have hqc : ¬ q c = true := fun hq => hpc (hc ▸ hq)
      rw [List.dropWhile_cons_of_neg hpc, List.dropWhile_cons_of_neg hqc]

theorem trimPCongr {p q : Char → Bool} {s : Str} (h : ∀ c ∈ s, p c = q c) :
    trimP p s = trimP q s := by
  rw [trimP, trimP, dropWhileCongr h]
  rw [trimRightP, trimRightP]
  rw [dropWhileCongr]
  intro c hc
  exact h c (List.Sublist.mem (by simpa using hc) (List.dropWhile_sublist q))

theorem goTrim_eq_asciiTrim {s : Str} (h : ∀ c ∈ s, goIsSpace c = true → isAsciiSpace c = true) :
    goTrimSpace s = asciiTrim s := by
  apply trimPCongr
  intro c hc
  by_cases ha : isAsciiSpace c = true
  · rw [ha, asciiSpace_goIsSpace ha]
  · by_cases hg : goIsSpace c = true
    · exact absurd (h c hc hg) ha
    · simp only [Bool.not_eq_true] at ha hg
      rw [ha, hg]

theorem indexAnd_append_some {a : Str} (b : Str) {e : Nat} (h : indexAnd a = some e) :
    indexAnd (a ++ b) = some e := by
  induction a generalizing e with
  | nil => simp [indexAnd] at h
  | cons c cs ih =>
    by_cases hc : isAndSep c
    · simp [indexAnd, hc] at h ⊢
      omega
    · simp [indexAnd, hc] at h ⊢
      obtain ⟨m, hm, rfl⟩ := h
      exact ⟨m, ih hm, rfl⟩

theorem indexAnd_append_none {a : Str} (b : Str) {c : Char} (h : indexAnd a = none)
    (hc : isAndSep c = true) : indexAnd (a ++ c :: b) = some a.length := by
  induction a with
  | nil => simp [indexAnd, hc]
  | cons d ds ih =>
    by_cases hd : isAndSep d
    · simp [indexAnd, hd] at h
    · simp only [indexAnd, hd] at h ⊢
      simp at h
      simp [ih h]

theorem splitAndSpec_append (b : Str) : ∀ (a : Str),
    (∀ c ∈ a, goIsSpace c = true → isAsciiSpace c = true) →
    splitAndSpec (a ++ '&' :: b) = splitAndSpec a ++ splitAndSpec b := by
  intro a
  induction a using splitAndSpec.induct with
  | case1 a he =>
    intro hA
    have hidx : indexAnd (a ++ '&' :: b) = some a.length :=
      indexAnd_append_none b he (by simp [isAndSep])
    have htake : (a ++ '&' :: b).take a.length = a := by
      rw [List.take_append_of_le_length (by omega), List.take_length]
    have hdrop : (a ++ '&' :: b).drop (a.length + 1) = b := by
      simp [List.drop_append]
    rw [splitAndSpec_none he, splitAndTail]
    rw [goTrim_eq_asciiTrim hA]
    by_cases hseg : asciiTrim a = []
    · rw [splitAndSpec_some_empty hidx (by rw [htake]; exact hseg), hdrop]
      simp [hseg]
    · rw [splitAndSpec_some_cons hidx (by rw [htake]; exact hseg), hdrop, htake]
      simp [hseg]
  | case2 a e he hlt hseg ih =>
    intro hA
    have helt : e < a.length := indexAnd_lt_length he
    have hidx : indexAnd (a ++ '&' :: b) = some e := indexAnd_append_some _ he
    have htake : (a ++ '&' :: b).take e = a.take e :=
      List.take_append_of_le_length (by omega)
    have hdrop : (a ++ '&' :: b).drop (e + 1) = a.drop (e + 1) ++ '&' :: b :=
      List.drop_append_of_le_length (by omega)
    rw [splitAndSpec_some_empty hidx (htake ▸ hseg), hdrop]
    rw [splitAndSpec_some_empty he hseg]
    exact ih fun c hc hg =>
      hA c (List.Sublist.mem hc (List.drop_sublist _ _)) hg
  | case3 a e he hlt hseg ih =>
    intro hA
    have helt : e < a.length := indexAnd_lt_length he
    have hidx : indexAnd (a ++ '&' :: b) = some e := indexAnd_append_some _ he
    have htake : (a ++ '&' :: b).take e = a.take e :=
      List.take_append_of_le_length (by omega)
    have hdrop : (a ++ '&' :: b).drop (e + 1) = a.drop (e + 1) ++ '&' :: b :=
      List.drop_append_of_le_length (by omega)
    rw [splitAndSpec_some_cons hidx (htake ▸ hseg), hdrop, htake]
    rw [splitAndSpec_some_cons he hseg]
    rw [ih fun c hc hg => hA c (List.Sublist.mem hc (List.drop_sublist _ _)) hg]
    simp

theorem expandStep_dollar (lookup : Str → Option Str) (o ev : Str) (m : List Str) :
    expandStep lookup ⟨o, ev, m, false, false⟩ dollar = ⟨o, ev, m, false, true⟩ := by
  simp [expandStep]

theorem expandStep_clean_other (lookup : Str → Option Str) (o ev : Str) (m : List Str)
    {c : Char} (hc : c ≠ dollar) :
    expandStep lookup ⟨o, ev, m, false, false⟩ c = ⟨o ++ [c], ev, m, false, false⟩ := by
  by_cases hb : c = lbrace
  · subst hb
    simp [expandStep, hc]
  · by_cases hr : c = rbrace
    · subst hr
      simp [expandStep, hc, hb]
    · simp [expandStep, hc, hb, hr]

theorem expandStep_after_dollar (lookup : Str → Option Str) (o ev : Str) (m : List Str)
    {c : Char} (hcd : c ≠ dollar) (hcb : c ≠ lbrace) :
    expandStep lookup ⟨o, ev, m, false, true⟩ c = ⟨o ++ [dollar, c], ev, m, false, false⟩ := by
  by_cases hr : c = rbrace
  · subst hr
    simp [expandStep, hcd, hcb]
  · simp [expandStep, hcd, hcb, hr]

theorem expandLoop_clean (lookup : Str → Option Str) :
    ∀ (t o ev : Str) (m : List Str),
    hasPair dollar lbrace t = false → hasPair dollar dollar t = false →
    expandLoop lookup t ⟨o, ev, m, false, false⟩ =
      if t.getLast? = some dollar
      then ⟨o ++ t.dropLast, ev, m, false, true⟩
      else ⟨o ++ t, ev, m, false, false⟩ := by
  have main : ∀ (n : Nat) (t : Str), t.length ≤ n → ∀ (o ev : Str) (m : List Str),
      hasPair dollar lbrace t = false → hasPair dollar dollar t = false →
      expandLoop lookup t ⟨o, ev, m, false, false⟩ =
        if t.getLast? = some dollar
        then ⟨o ++ t.dropLast, ev, m, false, true⟩
        else ⟨o ++ t, ev, m, false, false⟩ := by
    intro n
    induction n with
    | zero =>
      intro t hlen o ev m _ _
      have ht : t = [] := List.length_eq_zero.mp (Nat.le_zero.mp hlen)
      subst ht
      simp [expandLoop]
    | succ n ih =>
      intro t hlen o ev m h1 h2
      match t with
      | [] => simp [expandLoop]
      | c :: rest =>
        by_cases hc : c = dollar
        · subst hc
          match rest with
          | [] =>
            rw [expandLoop, expandStep_dollar, expandLoop]
            simp
          | c2 :: rest2 =>
            have hc2d : c2 ≠ dollar := by
              intro hx
              rw [hasPair] at h2
              simp [hx] at h2
            have hc2b : c2 ≠ lbrace := by
              intro hx
              rw [hasPair] at h1
              simp [hx] at h1
            have h1' : hasPair dollar lbrace (c2 :: rest2) = false := by
              rw [hasPair] at h1
              simp at h1
              exact h1.2
            have h2' : hasPair dollar dollar (c2 :: rest2) = false := by
              rw [hasPair] at h2
              simp at h2
              exact h2.2
            have h1'' : hasPair dollar lbrace rest2 = false := by
              match rest2 with
              | [] => rfl
              | c3 :: rest3 =>
                rw [hasPair] at h1'
                simp at h1'
                exact h1'.2
            have h2'' : hasPair dollar dollar rest2 = false := by
              match rest2 with
              | [] => rfl
              | c3 :: rest3 =>
                rw [hasPair] at h2'
                simp at h2'
                exact h2'.2
            rw [expandLoop, expandStep_dollar, expandLoop, expandStep_after_dollar lookup o ev m hc2d hc2b]
            rw [ih rest2 (by simp at hlen; omega) (o ++ [dollar, c2]) ev m h1'' h2'']
            match rest2 with
            | [] =>
              simp [hc2d]
            | c3 :: rest3 =>
              by_cases hl : (c3 :: rest3).getLast? = some dollar
              · simp [hl]
              · simp [hl]
        · have h1' : hasPair dollar lbrace rest = false := by
            match rest with
            | [] => rfl
            | c2 :: rest2 =>
              rw [hasPair] at h1
              simp at h1
              exact h1.2
          have h2' : hasPair dollar dollar rest = false := by
            match rest with
            | [] => rfl
            | c2 :: rest2 =>
              rw [hasPair] at h2
              simp at h2
              exact h2.2
          rw [expandLoop, expandStep_clean_other lookup o ev m hc]
          rw [ih rest (by simp at hlen; omega) (o ++ [c]) ev m h1' h2']
          match rest with
          | [] => simp [hc]
          | c2 :: rest2 =>
            by_cases hl : (c2 :: rest2).getLast? = some dollar
            · simp [hl]
            · simp [hl]
  intro t o ev m h1 h2
  exact main t.length t (Nat.le_refl _) o ev m h1 h2

/-- A string containing neither `${` nor `$$` is a fixed point of
`expandEnvVarsRaw`, with no missing names and no unterminated error. -/
theorem expandEnvVarsRaw_fixed (lookup : Str → Option Str) (t : Str)
    (h1 : hasPair dollar lbrace t = false) (h2 : hasPair dollar dollar t = false) :
    expandEnvVarsRaw lookup t = (t, [], false) := by
  rw [expandEnvVarsRaw, expandInit, expandLoop_clean lookup t [] [] [] h1 h2]
  by_cases hl : t.getLast? = some dollar
  · rw [if_pos hl]
    rw [expandFinish]
    simp
    have hne : t ≠ [] := by
      intro hx
      subst hx
      simp at hl
    have hg : t.getLast hne = dollar := by
      have hq := List.getLast?_eq_getLast t hne
      rw [hq] at hl
      injection hl
    rw [← hg]
    exact List.dropLast_append_getLast hne
  · rw [if_neg hl]
    rw [expandFinish]
    simp

theorem preStep_append {σ : Type} (env : Env σ) (rule : Rule σ) (i : Nat) (st : PreSt σ) :
    ∃ bE bT bM : Bool,
      (preStep env rule i st).executedPre = st.executedPre ++ [bE] ∧
      (preStep env rule i st).terminatedInPre = st.terminatedInPre ++ [bT] ∧
      (preStep env rule i st).matched = st.matched ++ [bM] := by
  rw [preStep]
  split_ifs with h1 h2
  · exact ⟨false, false, false, rfl, rfl, rfl⟩
  · exact ⟨rule.pre.isEmpty, false, true, rfl, rfl, rfl⟩
  · rcases hs : serveList env.up rule.pre st.s with ⟨s', e⟩
    cases e with
    | none => exact ⟨true, false, true, rfl, rfl, rfl⟩
    | some err =>
      cases err with
      | terminateRule => exact ⟨true, true, true, rfl, rfl, rfl⟩
      | unexpected => exact ⟨true, false, true, rfl, rfl, rfl⟩
      | benign => exact ⟨true, false, true, rfl, rfl, rfl⟩

theorem preStep_trace {σ : Type} (env : Env σ) (rule : Rule σ) (i : Nat) (st : PreSt σ) :
    (preStep env rule i st).trace = st.trace ∨
    (preStep env rule i st).trace = st.trace ++ [Event.preExec i] := by
  rw [preStep]
  split_ifs with h1 h2
  · exact Or.inl rfl
  · exact Or.inl rfl
  · rcases hs : serveList env.up rule.pre st.s with ⟨s', e⟩
    cases e with
    | none => exact Or.inr rfl
    | some err => cases err <;> exact Or.inr rfl

theorem preStep_inv_term {σ : Type} (env : Env σ) (rule : Rule σ) (i : Nat) (st : PreSt σ)
    (hinv : st.preTerminated = st.terminatedInPre.any id) :
    (preStep env rule i st).preTerminated =
      (preStep env rule i st).terminatedInPre.any id := by
  rw [preStep]
  split_ifs with h1 h2
  · simp [hinv]
  · simp [h2, hinv.symm.trans h2]
  · rcases hs : serveList env.up rule.pre st.s with ⟨s', e⟩
    simp at h2
    cases e with
    | none => simp [hinv, h2]
    | some err =>
      cases err with
      | terminateRule => simp
      | unexpected => simp [hinv, h2]
      | benign => simp [hinv, h2]

theorem preStep_inv_matched {σ : Type} (env : Env σ) (rule : Rule σ) (i : Nat) (st : PreSt σ)
    (hinv : st.matchedNonDefaultPre = st.matched.any id) :
    (preStep env rule i st).matchedNonDefaultPre =
      (preStep env rule i st).matched.any id := by
  rw [preStep]
  split_ifs with h1 h2
  · simp [hinv]
  · simp
  · rcases hs : serveList env.up rule.pre st.s with ⟨s', e⟩
    cases e with
    | none => simp
    | some err => cases err <;> simp

theorem preStep_term_skip {σ : Type} (env : Env σ) (rule : Rule σ) (i : Nat) (st : PreSt σ)
    (h : st.preTerminated = true) :
    (preStep env rule i st).trace = st.trace ∧
    (preStep env rule i st).preTerminated = true := by
  rw [preStep]
  split_ifs with h1
  · exact ⟨rfl, h⟩
  · exact ⟨rfl, h⟩

theorem preStep_emit_not_term {σ : Type} (env : Env σ) (rule : Rule σ) (i : Nat)
    (st : PreSt σ) (h : (preStep env rule i st).trace = st.trace ++ [Event.preExec i]) :
    st.preTerminated = false := by
  by_cases hp : st.preTerminated = true
  · have := (preStep_term_skip env rule i st hp).1
    rw [this] at h
    exact absurd h (by simp)
  · simp at hp
    exact hp

theorem preStep_matched_emptyPre {σ : Type} (env : Env σ) (rule : Rule σ) (i : Nat)
    (st : PreSt σ) (hpre : rule.pre = []) :
    ∃ bE bT bM : Bool,
      (preStep env rule i st).executedPre = st.executedPre ++ [bE] ∧
      (preStep env rule i st).terminatedInPre = st.terminatedInPre ++ [bT] ∧
      (preStep env rule i st).matched = st.matched ++ [bM] ∧
      (bM = true → bE = true ∧ bT = false) := by
  rw [preStep]
  split_ifs with h1 h2
  · exact ⟨false, false, false, rfl, rfl, rfl, by simp⟩
  · refine ⟨rule.pre.isEmpty, false, true, rfl, rfl, rfl, fun _ => ⟨?_, rfl⟩⟩
    simp [hpre]
  · rw [hpre]
    exact ⟨true, false, true, rfl, rfl, rfl, fun _ => ⟨rfl, rfl⟩⟩

theorem getD_concat_at (a : List Bool) (b : Bool) (d : List Bool) (i : Nat)
    (h : a.length = i) : ((a ++ [b]) ++ d).getD i false = b := by
  rw [List.getD_append _ _ _ _ (by simp; omega)]
  rw [List.getD_append_right _ _ _ _ (by omega)]
  simp [h]

theorem getD_false_of_any_false {l : List Bool} (h : l.any id = false) (k : Nat) :
    l.getD k false = false := by
  by_cases hk : k < l.length
  · rw [List.getD_eq_get l false hk]
    have hmem : l.get ⟨k, hk⟩ ∈ l := l.get_mem k hk
    have := List.any_eq_false.mp h _ hmem
    simpa using this
  · exact List.getD_eq_default l false (by omega)

theorem preLoop_trace_shape {σ : Type} (env : Env σ) :
    ∀ (l : List (Rule σ)) (i : Nat) (st : PreSt σ) (e : Event),
    e ∈ (preLoop env l i st).trace → e ∈ st.trace ∨ ∃ j, e = Event.preExec j := by
  intro l
  induction l with
  | nil =>
    intro i st e h
    exact Or.inl (by simpa [preLoop] using h)
  | cons rule rest ih =>
    intro i st e h
    rw [preLoop] at h
    rcases ih (i + 1) (preStep env rule i st) e h with h' | h'
    · rcases preStep_trace env rule i st with ht | ht
      · rw [ht] at h'
        exact Or.inl h'
      · rw [ht] at h'
        rcases List.mem_append.mp h' with h'' | h''
        · exact Or.inl h''
        · simp at h''
          exact Or.inr ⟨i, h''⟩
    · exact Or.inr h'

theorem preLoop_append {σ : Type} (env : Env σ) :
    ∀ (l : List (Rule σ)) (i : Nat) (st : PreSt σ), ∃ dE dT dM dTr,
    (preLoop env l i st).executedPre = st.executedPre ++ dE ∧
    (preLoop env l i st).terminatedInPre = st.terminatedInPre ++ dT ∧
    (preLoop env l i st).matched = st.matched ++ dM ∧
    (preLoop env l i st).trace = st.trace ++ dTr ∧
    dE.length = l.length ∧ dT.length = l.length ∧ dM.length = l.length := by
  intro l
  induction l with
  | nil =>
    intro i st
    exact ⟨[], [], [], [], by simp [preLoop], by simp [preLoop], by simp [preLoop],
      by simp [preLoop], rfl, rfl, rfl⟩
  | cons rule rest ih =>
    intro i st
    obtain ⟨bE, bT, bM, hE, hT, hM⟩ := preStep_append env rule i st
    obtain ⟨dE, dT, dM, dTr, h1, h2, h3, h4, h5, h6, h7⟩ := ih (i + 1) (preStep env rule i st)
    rcases preStep_trace env rule i st with ht | ht
    · refine ⟨bE :: dE, bT :: dT, bM :: dM, dTr, ?_, ?_, ?_, ?_, by simp [h5],
        by simp [h6], by simp [h7]⟩
      · rw [preLoop, h1, hE]
        simp
      · rw [preLoop, h2, hT]
        simp
      · rw [preLoop, h3, hM]
        simp
      · rw [preLoop, h4, ht]
    · refine ⟨bE :: dE, bT :: dT, bM :: dM, Event.preExec i :: dTr, ?_, ?_, ?_, ?_,
        by simp [h5], by simp [h6], by simp [h7]⟩
      · rw [preLoop, h1, hE]
        simp
      · rw [preLoop, h2, hT]
        simp
      · rw [preLoop, h3, hM]
        simp
      · rw [preLoop, h4, ht]
        simp

theorem preLoop_inv_term {σ : Type} (env : Env σ) :
    ∀ (l : List (Rule σ)) (i : Nat) (st : PreSt σ),
    st.preTerminated = st.terminatedInPre.any id →
    (preLoop env l i st).preTerminated = (preLoop env l i st).terminatedInPre.any id := by
  intro l
  induction l with
  | nil =>
    intro i st h
    simpa [preLoop] using h
  | cons rule rest ih =>
    intro i st h
    rw [preLoop]
    exact ih (i + 1) _ (preStep_inv_term env rule i st h)

theorem preLoop_inv_matched {σ : Type} (env : Env σ) :
    ∀ (l : List (Rule σ)) (i : Nat) (st : PreSt σ),
    st.matchedNonDefaultPre = st.matched.any id →
    (preLoop env l i st).matchedNonDefaultPre = (preLoop env l i st).matched.any id := by
  intro l
  induction l with
  | nil =>
    intro i st h
    simpa [preLoop] using h
  | cons rule rest ih =>
    intro i st h
    rw [preLoop]
    exact ih (i + 1) _ (preStep_inv_matched env rule i st h)

theorem preLoop_preExec_mem {σ : Type} (env : Env σ) :
    ∀ (l : List (Rule σ)) (i : Nat) (st : PreSt σ) (j : Nat),
    st.terminatedInPre.length = i →
    st.preTerminated = st.terminatedInPre.any id →
    Event.preExec j ∈ (preLoop env l i st).trace →
    Event.preExec j ∈ st.trace ∨
      ∀ k, k < j → (preLoop env l i st).terminatedInPre.getD k false = false := by
  intro l
  induction l with
  | nil =>
    intro i st j _ _ h
    exact Or.inl (by simpa [preLoop] using h)
  | cons rule rest ih =>
    intro i st j hlen hinv hmem
    rw [preLoop] at hmem
    have hlen' : (preStep env rule i st).terminatedInPre.length = i + 1 := by
      obtain ⟨bE, bT, bM, hE, hT, hM⟩ := preStep_append env rule i st
      rw [hT]
      simp [hlen]
    have hinv' := preStep_inv_term env rule i st hinv
    rcases ih (i + 1) _ j hlen' hinv' hmem with h' | h'
    · rcases preStep_trace env rule i st with ht | ht
      · rw [ht] at h'
        exact Or.inl h'
      · rw [ht] at h'
        rcases List.mem_append.mp h' with h'' | h''
        · exact Or.inl h''
        · simp at h''
          right
          intro k hk
          rw [h''] at hk
          have hterm : st.preTerminated = false := preStep_emit_not_term env rule i st ht
          have hall : st.terminatedInPre.any id = false := by
            rw [← hinv]
            exact hterm
          obtain ⟨bE, bT, bM, hE, hT, hM⟩ := preStep_append env rule i st
          obtain ⟨dE, dT, dM, dTr, h1, h2, h3, h4, h5, h6, h7⟩ :=
            preLoop_append env rest (i + 1) (preStep env rule i st)
          rw [preLoop, h2, hT, List.append_assoc]
          rw [List.getD_append _ _ _ _ (by omega)]
          exact getD_false_of_any_false hall k
    · right
      intro k hk
      rw [preLoop]
      exact h' k hk

theorem preLoop_matched_emptyPre {σ : Type} (env : Env σ) :
    ∀ (l : List (Rule σ)) (i : Nat) (st : PreSt σ) (j : Nat) (rule : Rule σ),
    st.executedPre.length = i → st.terminatedInPre.length = i → st.matched.length = i →
    l[j]? = some rule → rule.pre = [] →
    (preLoop env l i st).matched.getD (i + j) false = true →
    (preLoop env l i st).executedPre.getD (i + j) false = true ∧
      (preLoop env l i st).terminatedInPre.getD (i + j) false = false := by
  intro l
  induction l with
  | nil =>
    intro i st j rule _ _ _ hget _ _
    simp at hget
  | cons hd rest ih =>
    intro i st j rule hE hT hM hget hpre hmatch
    match j with
    | 0 =>
      simp at hget
      subst hget
      obtain ⟨bE, bT, bM, h1, h2, h3, himp⟩ := preStep_matched_emptyPre env hd i st hpre
      obtain ⟨dE, dT, dM, dTr, g1, g2, g3, g4, g5, g6, g7⟩ :=
        preLoop_append env rest (i + 1) (preStep env hd i st)
      rw [preLoop, g3, h3, getD_concat_at st.matched bM dM (i + 0) (by omega)] at hmatch
      obtain ⟨hbE, hbT⟩ := himp hmatch
      constructor
      · rw [preLoop, g1, h1, getD_concat_at st.executedPre bE dE (i + 0) (by omega)]
        exact hbE
      · rw [preLoop, g2, h2, getD_concat_at st.terminatedInPre bT dT (i + 0) (by omega)]
        exact hbT
    | Nat.succ j' =>
      simp at hget
      have hE' : (preStep env hd i st).executedPre.length = i + 1 := by
        obtain ⟨bE, bT, bM, h1, h2, h3⟩ := preStep_append env hd i st
        rw [h1]
        simp [hE]
      have hT' : (preStep env hd i st).terminatedInPre.length = i + 1 := by
        obtain ⟨bE, bT, bM, h1, h2, h3⟩ := preStep_append env hd i st
        rw [h2]
        simp [hT]
      have hM' : (preStep env hd i st).matched.length = i + 1 := by
        obtain ⟨bE, bT, bM, h1, h2, h3⟩ := preStep_append env hd i st
        rw [h3]
        simp [hM]
      have hidx : i + (j' + 1) = (i + 1) + j' := by omega
      rw [preLoop, hidx] at hmatch ⊢
      exact ih (i + 1) _ j' rule hE' hT' hM' hget hpre hmatch

theorem defaultStep_none {σ : Type} (env : Env σ) (st : PreSt σ) :
    defaultStep env none st = ⟨st.s, false, false, st.hasError, []⟩ := rfl

theorem defaultStep_some_trace {σ : Type} (env : Env σ) (d : Rule σ) (st : PreSt σ) :
    (defaultStep env (some d) st).trace =
      if !st.matchedNonDefaultPre && !d.On.phase.isPostRule && d.On.check st.s
      then [Event.defaultPre] else [] := by
  rw [defaultStep]
  split_ifs with h
  · rcases hs : serveList env.up d.pre st.s with ⟨s', e⟩
    cases e with
    | none => rfl
    | some err => cases err <;> rfl
  · rfl

theorem defaultStep_some_dep {σ : Type} (env : Env σ) (d : Rule σ) (st : PreSt σ) :
    (defaultStep env (some d) st).defaultExecutedPre =
      (!st.matchedNonDefaultPre && !d.On.phase.isPostRule && d.On.check st.s) := by
  rw [defaultStep]
  split_ifs with h
  · rcases hs : serveList env.up d.pre st.s with ⟨s', e⟩
    rw [h]
    cases e with
    | none => rfl
    | some err => cases err <;> rfl
  · simp only [Bool.not_eq_true] at h
    rw [h]

theorem upstreamStep_shape {σ : Type} (env : Env σ) (b : Bool) (s : σ) (e : Event)
    (h : e ∈ (upstreamStep env b s).2) : e = Event.error500 ∨ e = Event.upstream := by
  rw [upstreamStep] at h
  split_ifs at h with h1 h2
  · simp at h
    exact Or.inl h
  · simp at h
    exact Or.inr h
  · simp at h

theorem postLoop_shape {σ : Type} (env : Env σ) :
    ∀ (l : List (Rule σ)) (eps tps : List Bool) (i : Nat) (s : σ) (e : Event),
    e ∈ (postLoop env l eps tps i s).2 → ∃ j, e = Event.postExec j := by
  intro l
  induction l with
  | nil =>
    intro eps tps i s e h
    simp [postLoop] at h
  | cons rule rest ih =>
    intro eps tps i s e h
    cases eps with
    | nil => simp [postLoop] at h
    | cons ep eps' =>
      cases tps with
      | nil => simp [postLoop] at h
      | cons tp tps' =>
        rw [postLoop] at h
        split_ifs at h with hc
        · exact ih eps' tps' (i + 1) s e h
        · rcases hs : serveList env.up rule.post s with ⟨s', err⟩
          rw [hs] at h
          have hmem : ∀ (s2 : σ), e ∈ Event.postExec i ::
              (postLoop env rest eps' tps' (i + 1) s2).2 → ∃ j, e = Event.postExec j := by
            intro s2 hm
            rcases List.mem_cons.mp hm with h' | h'
            · exact ⟨i, h'⟩
            · exact ih eps' tps' (i + 1) s2 e h'
          cases err with
          | none => exact hmem s' h
          | some e2 => cases e2 <;> [exact hmem s' h; exact hmem (env.appendError s') h;
              exact hmem s' h]

theorem postLoop_mem {σ : Type} (env : Env σ) :
    ∀ (l : List (Rule σ)) (eps tps : List Bool) (i : Nat) (s : σ) (k : Nat),
    l.length = eps.length → l.length = tps.length → k < l.length →
    eps.getD k false = true → tps.getD k false = false →
    Event.postExec (i + k) ∈ (postLoop env l eps tps i s).2 := by
  intro l
  induction l with
  | nil =>
    intro eps tps i s k _ _ hk _ _
    simp at hk
  | cons rule rest ih =>
    intro eps tps i s k hle hlt hk hep htp
    cases eps with
    | nil => simp at hle
    | cons ep eps' =>
      cases tps with
      | nil => simp at hlt
      | cons tp tps' =>
        match k with
        | 0 =>
          simp at hep htp
          rw [postLoop]
          rw [if_neg (by simp [hep, htp])]
          rcases hs : serveList env.up rule.post s with ⟨s', err⟩
          cases err with
          | none => exact List.mem_cons_self _ _
          | some e2 => cases e2 <;> exact List.mem_cons_self _ _
        | Nat.succ k' =>
          simp at hk hle hlt
          have hep' : eps'.getD k' false = true := by
            simpa using hep
          have htp' : tps'.getD k' false = false := by
            simpa using htp
          have hidx : i + (k' + 1) = (i + 1) + k' := by omega
          rw [postLoop, hidx]
          split_ifs with hc
          · exact ih eps' tps' (i + 1) s k' hle hlt (by omega) hep' htp'
          · rcases hs : serveList env.up rule.post s with ⟨s', err⟩
            have hmem : ∀ (s2 : σ), Event.postExec ((i + 1) + k') ∈ Event.postExec i ::
                (postLoop env rest eps' tps' (i + 1) s2).2 := by
              intro s2
              exact List.mem_cons_of_mem _ (ih eps' tps' (i + 1) s2 k' hle hlt (by omega) hep' htp')
            cases err with
            | none => exact hmem s'
            | some e2 => cases e2 <;> [exact hmem s'; exact hmem (env.appendError s');
                exact hmem s']

theorem defaultPostStep_shape {σ : Type} (env : Env σ) (dr : Option (Rule σ))
    (dep dtp : Bool) (s : σ) (e : Event)
    (h : e ∈ (defaultPostStep env dr dep dtp s).2) : e = Event.defaultPost := by
  cases dr with
  | none => simp [defaultPostStep] at h
  | some d =>
    rw [defaultPostStep] at h
    split_ifs at h with hc
    · rcases hs : serveList env.up d.post s with ⟨s', err⟩
      rw [hs] at h
      cases err with
      | none => simpa using h
      | some e2 => cases e2 <;> simpa using h
    · simp at h

theorem defaultPostStep_skip {σ : Type} (env : Env σ) (dr : Option (Rule σ))
    (dtp : Bool) (s : σ) : (defaultPostStep env dr false dtp s).2 = [] := by
  cases dr with
  | none => rfl
  | some d => simp [defaultPostStep]

theorem postMatcherLoop_shape {σ : Type} (env : Env σ) :
    ∀ (l : List (Rule σ)) (i : Nat) (s : σ) (e : Event),
    e ∈ (postMatcherLoop env l i s).2 →
    (∃ j, e = Event.postMatcherPre j) ∨ ∃ j, e = Event.postMatcherPost j := by
  intro l
  induction l with
  | nil =>
    intro i s e h
    simp [postMatcherLoop] at h
  | cons rule rest ih =>
    intro i s e h
    rw [postMatcherLoop] at h
    split_ifs at h with hc
    · exact ih (i + 1) s e h
    · have hpost : ∀ (s1 : σ), e ∈ (match serveList env.up rule.post s1 with
          | (s2, some RuleErr.unexpected) =>
            ((postMatcherLoop env rest (i + 1) (env.appendError s2)).1,
              Event.postMatcherPre i :: Event.postMatcherPost i ::
                (postMatcherLoop env rest (i + 1) (env.appendError s2)).2)
          | (s2, _) =>
            ((postMatcherLoop env rest (i + 1) s2).1,
              Event.postMatcherPre i :: Event.postMatcherPost i ::
                (postMatcherLoop env rest (i + 1) s2).2)).2 →
          (∃ j, e = Event.postMatcherPre j) ∨ ∃ j, e = Event.postMatcherPost j := by
        intro s1 hm
        rcases hs2 : serveList env.up rule.post s1 with ⟨s2, err2⟩
        rw [hs2] at hm
        have hcons : ∀ (s3 : σ), e ∈ Event.postMatcherPre i :: Event.postMatcherPost i ::
            (postMatcherLoop env rest (i + 1) s3).2 →
            (∃ j, e = Event.postMatcherPre j) ∨ ∃ j, e = Event.postMatcherPost j := by
          intro s3 hm2
          rcases List.mem_cons.mp hm2 with h' | h'
          · exact Or.inl ⟨i, h'⟩
          · rcases List.mem_cons.mp h' with h'' | h''
            · exact Or.inr ⟨i, h''⟩
            · exact ih (i + 1) s3 e h''
        cases err2 with
        | none => exact hcons s2 hm
        | some e2 => cases e2 <;> [exact hcons s2 hm; exact hcons (env.appendError s2) hm;
            exact hcons s2 hm]
      rcases hs : serveList env.up rule.pre s with ⟨s1, err1⟩
      rw [hs] at h
      cases err1 with
      | none => exact hpost s1 h
      | some e1 =>
        cases e1 with
        | terminateRule =>
          rcases List.mem_cons.mp h with h' | h'
          · exact Or.inl ⟨i, h'⟩
          · exact ih (i + 1) s1 e h'
        | unexpected => exact hpost (env.appendError s1) h
        | benign => exact hpost s1 h

theorem runPipeline_matched {σ : Type} (env : Env σ) (rules : List (Rule σ)) (s0 : σ) :
    (runPipeline env rules s0).matched = (pipePreSt env rules s0).matched := rfl

theorem runPipeline_terminated {σ : Type} (env : Env σ) (rules : List (Rule σ)) (s0 : σ) :
    (runPipeline env rules s0).terminatedInPre =
      (pipePreSt env rules s0).terminatedInPre := rfl

theorem runPipeline_executed {σ : Type} (env : Env σ) (rules : List (Rule σ)) (s0 : σ) :
    (runPipeline env rules s0).executedPre = (pipePreSt env rules s0).executedPre := rfl

theorem runPipeline_statePreDone {σ : Type} (env : Env σ) (rules : List (Rule σ)) (s0 : σ) :
    (runPipeline env rules s0).statePreDone = (pipePreSt env rules s0).s := rfl

theorem runPipeline_preTrace {σ : Type} (env : Env σ) (rules : List (Rule σ)) (s0 : σ) :
    (runPipeline env rules s0).preTrace = (pipePreSt env rules s0).trace := rfl

theorem runPipeline_defTrace {σ : Type} (env : Env σ) (rules : List (Rule σ)) (s0 : σ) :
    (runPipeline env rules s0).defTrace =
      (defaultStep env (lastDefault rules) (pipePreSt env rules s0)).trace := rfl

theorem runPipeline_midTrace {σ : Type} (env : Env σ) (rules : List (Rule σ)) (s0 : σ) :
    (runPipeline env rules s0).midTrace =
      (upstreamStep env (defaultStep env (lastDefault rules) (pipePreSt env rules s0)).hasError
        (defaultStep env (lastDefault rules) (pipePreSt env rules s0)).s).2 := rfl

theorem runPipeline_postTrace {σ : Type} (env : Env σ) (rules : List (Rule σ)) (s0 : σ) :
    (runPipeline env rules s0).postTrace =
      (postLoop env (nonDefaultRules rules) (pipePreSt env rules s0).executedPre
        (pipePreSt env rules s0).terminatedInPre 0
        (upstreamStep env
          (defaultStep env (lastDefault rules) (pipePreSt env rules s0)).hasError
          (defaultStep env (lastDefault rules) (pipePreSt env rules s0)).s).1).2 := rfl

theorem runPipeline_defPostTrace {σ : Type} (env : Env σ) (rules : List (Rule σ)) (s0 : σ) :
    (runPipeline env rules s0).defPostTrace =
      (defaultPostStep env (lastDefault rules)
        (defaultStep env (lastDefault rules) (pipePreSt env rules s0)).defaultExecutedPre
        (defaultStep env (lastDefault rules) (pipePreSt env rules s0)).defaultTerminatedInPre
        (postLoop env (nonDefaultRules rules) (pipePreSt env rules s0).executedPre
          (pipePreSt env rules s0).terminatedInPre 0
          (upstreamStep env
            (defaultStep env (lastDefault rules) (pipePreSt env rules s0)).hasError
            (defaultStep env (lastDefault rules) (pipePreSt env rules s0)).s).1).1).2 := rfl

theorem runPipeline_pmTrace {σ : Type} (env : Env σ) (rules : List (Rule σ)) (s0 : σ) :
    ∃ s4 : σ, (runPipeline env rules s0).pmTrace =
      (postMatcherLoop env (nonDefaultRules rules) 0 s4).2 :=
  ⟨_, rfl⟩

theorem runPipeline_trace_eq {σ : Type} (env : Env σ) (rules : List (Rule σ)) (s0 : σ) :
    (runPipeline env rules s0).trace =
      (runPipeline env rules s0).preTrace ++ (runPipeline env rules s0).defTrace ++
      (runPipeline env rules s0).midTrace ++ (runPipeline env rules s0).postTrace ++
      (runPipeline env rules s0).defPostTrace ++ (runPipeline env rules s0).pmTrace := rfl

theorem pipePreSt_inv_matched {σ : Type} (env : Env σ) (rules : List (Rule σ)) (s0 : σ) :
    (pipePreSt env rules s0).matchedNonDefaultPre =
      (pipePreSt env rules s0).matched.any id :=
  preLoop_inv_matched env _ 0 _ rfl

theorem pipePreSt_inv_term {σ : Type} (env : Env σ) (rules : List (Rule σ)) (s0 : σ) :
    (pipePreSt env rules s0).preTerminated =
      (pipePreSt env rules s0).terminatedInPre.any id :=
  preLoop_inv_term env _ 0 _ rfl

theorem defaultPre_not_elsewhere {σ : Type} (env : Env σ) (rules : List (Rule σ)) (s0 : σ) :
    Event.defaultPre ∈ (runPipeline env rules s0).trace →
    Event.defaultPre ∈ (runPipeline env rules s0).defTrace := by
  intro h
  rw [runPipeline_trace_eq] at h
  simp only [List.mem_append] at h
  rcases h with ((((h | h) | h) | h) | h) | h
  · rw [runPipeline_preTrace] at h
    rcases preLoop_trace_shape env _ 0 _ _ h with h' | ⟨j, h'⟩
    · simp at h'
    · simp at h'
  · exact h
  · rw [runPipeline_midTrace] at h
    rcases upstreamStep_shape env _ _ _ h with h' | h' <;> simp at h'
  · rw [runPipeline_postTrace] at h
    obtain ⟨j, h'⟩ := postLoop_shape env _ _ _ _ _ _ h
    simp at h'
  · rw [runPipeline_defPostTrace] at h
    have := defaultPostStep_shape env _ _ _ _ _ h
    simp at this
  · obtain ⟨s4, hpm⟩ := runPipeline_pmTrace env rules s0
    rw [hpm] at h
    rcases postMatcherLoop_shape env _ 0 _ _ h with ⟨j, h'⟩ | ⟨j, h'⟩ <;> simp at h'

theorem defaultPost_not_elsewhere {σ : Type} (env : Env σ) (rules : List (Rule σ)) (s0 : σ) :
    Event.defaultPost ∈ (runPipeline env rules s0).trace →
    Event.defaultPost ∈ (runPipeline env rules s0).defPostTrace := by
  intro h
  rw [runPipeline_trace_eq] at h
  simp only [List.mem_append] at h
  rcases h with ((((h | h) | h) | h) | h) | h
  · rw [runPipeline_preTrace] at h
    rcases preLoop_trace_shape env _ 0 _ _ h with h' | ⟨j, h'⟩
    · simp at h'
    · simp at h'
  · rw [runPipeline_defTrace] at h
    cases hd : lastDefault rules with
    | none =>
      rw [hd, defaultStep_none] at h
      simp at h
    | some d =>
      rw [hd, defaultStep_some_trace] at h
      split_ifs at h
      · simp at h
      · simp at h
  · rw [runPipeline_midTrace] at h
    rcases upstreamStep_shape env _ _ _ h with h' | h' <;> simp at h'
  · rw [runPipeline_postTrace] at h
    obtain ⟨j, h'⟩ := postLoop_shape env _ _ _ _ _ _ h
    simp at h'
  · exact h
  · obtain ⟨s4, hpm⟩ := runPipeline_pmTrace env rules s0
    rw [hpm] at h
    rcases postMatcherLoop_shape env _ 0 _ _ h with ⟨j, h'⟩ | ⟨j, h'⟩ <;> simp at h'

theorem defTrace_mem_iff {σ : Type} (env : Env σ) (rules : List (Rule σ)) (s0 : σ) :
    Event.defaultPre ∈ (runPipeline env rules s0).defTrace ↔
      ∃ d, lastDefault rules = some d ∧
        (pipePreSt env rules s0).matchedNonDefaultPre = false ∧
        d.On.phase.isPostRule = false ∧
        d.On.check (pipePreSt env rules s0).s = true := by
  rw [runPipeline_defTrace]
  cases hd : lastDefault rules with
  | none =>
    rw [defaultStep_none]
    simp
  | some d =>
    rw [defaultStep_some_trace]
    split_ifs with hc
    · simp only [List.mem_singleton]
      simp at hc
      simp [hd, hc.1.1, hc.1.2, hc.2]
    · simp only [List.not_mem_nil, false_iff]
      intro ⟨d', hd', h1, h2, h3⟩
      injection hd' with hd'
      subst hd'
      simp [h1, h2, h3] at hc

/-- C1: the default rule's pre commands execute iff no non-default rule
whose `On` phase is not post matched in the pre phase, the default rule
exists, its `On` is not a post rule, and its check passes on the
post-pre-loop state; if any non-default pre rule matched, neither the
default rule's pre nor its post commands run. -/
theorem default_rule_fallback {σ : Type} (env : Env σ) (rules : List (Rule σ)) (s0 : σ) :
    (Event.defaultPre ∈ (runPipeline env rules s0).trace ↔
      ((∃ d, lastDefault rules = some d ∧ d.On.phase.isPostRule = false ∧
          d.On.check ((runPipeline env rules s0).statePreDone) = true) ∧
        (runPipeline env rules s0).matched.any id = false)) ∧
    ((runPipeline env rules s0).matched.any id = true →
      Event.defaultPre ∉ (runPipeline env rules s0).trace ∧
      Event.defaultPost ∉ (runPipeline env rules s0).trace) := by
  have hmval := pipePreSt_inv_matched env rules s0
  have hiff : Event.defaultPre ∈ (runPipeline env rules s0).trace ↔
      ((∃ d, lastDefault rules = some d ∧ d.On.phase.isPostRule = false ∧
          d.On.check ((runPipeline env rules s0).statePreDone) = true) ∧
        (runPipeline env rules s0).matched.any id = false) := by
    constructor
    · intro h
      have h2 := (defTrace_mem_iff env rules s0).mp (defaultPre_not_elsewhere env rules s0 h)
      obtain ⟨d, hd, hm, hp, hc⟩ := h2
      refine ⟨⟨d, hd, hp, ?_⟩, ?_⟩
      · rw [runPipeline_statePreDone]
        exact hc
      · rw [runPipeline_matched, ← hmval]
        exact hm
    · intro ⟨⟨d, hd, hp, hc⟩, hm⟩
      have hmem : Event.defaultPre ∈ (runPipeline env rules s0).defTrace := by
        rw [defTrace_mem_iff]
        refine ⟨d, hd, ?_, hp, ?_⟩
        · rw [hmval, ← runPipeline_matched]
          exact hm
        · rw [← runPipeline_statePreDone]
          exact hc
      rw [runPipeline_trace_eq]
      simp only [List.mem_append]
      tauto
  refine ⟨hiff, ?_⟩
  intro hma
  have hm : (pipePreSt env rules s0).matchedNonDefaultPre = true := by
    rw [hmval, ← runPipeline_matched]
    exact hma
  constructor
  · intro hmem
    have := (hiff.mp hmem).2
    rw [this] at hma
    exact Bool.false_ne_true hma
  · intro hmem
    have hmem' := defaultPost_not_elsewhere env rules s0 hmem
    have hdep : (defaultStep env (lastDefault rules)
        (pipePreSt env rules s0)).defaultExecutedPre = false := by
      cases hd : lastDefault rules with
      | none => rw [defaultStep_none]
      | some d =>
        rw [defaultStep_some_dep]
        simp [hm]
    rw [runPipeline_defPostTrace, hdep, defaultPostStep_skip] at hmem'
    simp at hmem'

/-- C1 (witness): with a matching non-default rule present, neither
default-rule phase runs. -/
theorem default_rule_fallback_witness :
    Event.defaultPre ∉ (runPipeline witEnv c1Rules 0).trace ∧
    Event.defaultPost ∉ (runPipeline witEnv c1Rules 0).trace :=
  (default_rule_fallback witEnv c1Rules 0).2 (by decide)

theorem preExec_not_elsewhere {σ : Type} (env : Env σ) (rules : List (Rule σ)) (s0 : σ)
    (j : Nat) : Event.preExec j ∈ (runPipeline env rules s0).trace →
    Event.preExec j ∈ (runPipeline env rules s0).preTrace := by
  intro h
  rw [runPipeline_trace_eq] at h
  simp only [List.mem_append] at h
  rcases h with ((((h | h) | h) | h) | h) | h
  · exact h
  · rw [runPipeline_defTrace] at h
    cases hd : lastDefault rules with
    | none =>
      rw [hd, defaultStep_none] at h
      simp at h
    | some d =>
      rw [hd, defaultStep_some_trace] at h
      split_ifs at h
      · simp at h
      · simp at h
  · rw [runPipeline_midTrace] at h
    rcases upstreamStep_shape env _ _ _ h with h' | h' <;> simp at h'
  · rw [runPipeline_postTrace] at h
    obtain ⟨j', h'⟩ := postLoop_shape env _ _ _ _ _ _ h
    simp at h'
  · rw [runPipeline_defPostTrace] at h
    have := defaultPostStep_shape env _ _ _ _ _ h
    simp at this
  · obtain ⟨s4, hpm⟩ := runPipeline_pmTrace env rules s0
    rw [hpm] at h
    rcases postMatcherLoop_shape env _ 0 _ _ h with ⟨j', h'⟩ | ⟨j', h'⟩ <;> simp at h'

/-- C2: once some pre command signals termination (index `i` of
`terminatedInPre` is set), no later rule's pre commands execute — no
`preExec j` event with `i < j` appears anywhere in the trace; yet every
matched rule whose pre list is empty still has its post commands executed:
`postExec j` appears in the post-phase trace, which sits after the
upstream step in the full trace. -/
theorem termination_and_post_only {σ : Type} (env : Env σ) (rules : List (Rule σ)) (s0 : σ) :
    (∀ i j, i < j →
      (runPipeline env rules s0).terminatedInPre.getD i false = true →
      Event.preExec j ∉ (runPipeline env rules s0).trace) ∧
    (∀ j rule, (nonDefaultRules rules)[j]? = some rule → rule.pre = [] →
      (runPipeline env rules s0).matched.getD j false = true →
      Event.postExec j ∈ (runPipeline env rules s0).postTrace ∧
      Event.postExec j ∈ (runPipeline env rules s0).trace) := by
  constructor
  · intro i j hij hterm hmem
    have hmem' := preExec_not_elsewhere env rules s0 j hmem
    rw [runPipeline_preTrace, pipePreSt] at hmem'
    rcases preLoop_preExec_mem env (nonDefaultRules rules) 0
        ⟨s0, [], [], [], false, false, false, []⟩ j rfl rfl hmem' with h | h
    · simp at h
    · have hf := h i hij
      rw [runPipeline_terminated, pipePreSt] at hterm
      rw [hf] at hterm
      exact Bool.false_ne_true hterm
  · intro j rule hget hpre hmatch
    have hjlen : j < (nonDefaultRules rules).length := by
      by_contra hc
      push_neg at hc
      rw [List.getElem?_eq_none hc] at hget
      exact Option.noConfusion hget
    have hmatch' : (preLoop env (nonDefaultRules rules) 0
        ⟨s0, [], [], [], false, false, false, []⟩).matched.getD (0 + j) false = true := by
      rw [Nat.zero_add]
      rw [runPipeline_matched, pipePreSt] at hmatch
      exact hmatch
    obtain ⟨hep, htp⟩ := preLoop_matched_emptyPre env (nonDefaultRules rules) 0
        ⟨s0, [], [], [], false, false, false, []⟩ j rule rfl rfl rfl hget hpre hmatch'
    rw [Nat.zero_add] at hep htp
    obtain ⟨dE, dT, dM, dTr, g1, g2, g3, g4, g5, g6, g7⟩ :=
      preLoop_append env (nonDefaultRules rules) 0 ⟨s0, [], [], [], false, false, false, []⟩
    have hlE : (nonDefaultRules rules).length = (preLoop env (nonDefaultRules rules) 0
        ⟨s0, [], [], [], false, false, false, []⟩).executedPre.length := by
      rw [g1]
      simp [g5]
    have hlT : (nonDefaultRules rules).length = (preLoop env (nonDefaultRules rules) 0
        ⟨s0, [], [], [], false, false, false, []⟩).terminatedInPre.length := by
      rw [g2]
      simp [g6]
    have hpost : Event.postExec j ∈ (runPipeline env rules s0).postTrace := by
      rw [runPipeline_postTrace, pipePreSt]
      have hm := postLoop_mem env (nonDefaultRules rules)
        (preLoop env (nonDefaultRules rules) 0
          ⟨s0, [], [], [], false, false, false, []⟩).executedPre
        (preLoop env (nonDefaultRules rules) 0
          ⟨s0, [], [], [], false, false, false, []⟩).terminatedInPre 0
        (upstreamStep env
          (defaultStep env (lastDefault rules) (preLoop env (nonDefaultRules rules) 0
            ⟨s0, [], [], [], false, false, false, []⟩)).hasError
          (defaultStep env (lastDefault rules) (preLoop env (nonDefaultRules rules) 0
            ⟨s0, [], [], [], false, false, false, []⟩)).s).1 j hlE hlT hjlen hep htp
      rw [Nat.zero_add] at hm
      exact hm
    refine ⟨hpost, ?_⟩
    rw [runPipeline_trace_eq]
    simp only [List.mem_append]
    exact Or.inl (Or.inl (Or.inr hpost))

/-- C2 (witness): rule 0 terminates in pre, so rule 1's pre never runs,
yet rule 1 (matched, empty pre list) still has its post command executed. -/
theorem termination_and_post_only_witness :
    Event.preExec 1 ∉ (runPipeline witEnv c2Rules 0).trace ∧
    (Event.postExec 1 ∈ (runPipeline witEnv c2Rules 0).postTrace ∧
     Event.postExec 1 ∈ (runPipeline witEnv c2Rules 0).trace) :=
  ⟨(termination_and_post_only witEnv c2Rules 0).1 0 1 (by decide) (by decide),
   (termination_and_post_only witEnv c2Rules 0).2 1 c2Rule1 rfl rfl (by decide)⟩

/-- C9: `BuildHandler` returns the upstream handler unchanged exactly for
the trivial rule sets: the empty set, and sets with no non-default rule
whose default rule (if any) has the raw do-body `upstream`. -/
theorem buildHandler_identity_iff {σ : Type} (env : Env σ) (rules : List (Rule σ)) :
    (buildHandler env rules).isIdentity = true ↔
      rules = [] ∨ (nonDefaultRules rules = [] ∧
        (lastDefault rules = none ∨
          ∃ d, lastDefault rules = some d ∧ d.doRaw = toL "upstream")) := by
  by_cases h1 : rules.isEmpty
  · have hr : rules = [] := List.isEmpty_iff.mp h1
    subst hr
    simp [buildHandler, BuiltHandler.isIdentity]
  · have hne : rules ≠ [] := fun hc => h1 (by simp [hc])
    rw [buildHandler, if_neg h1]
    by_cases h2 : (nonDefaultRules rules).isEmpty
    · rw [if_pos h2]
      have h2' : nonDefaultRules rules = [] := List.isEmpty_iff.mp h2
      cases hd : lastDefault rules with
      | none =>
        simp [BuiltHandler.isIdentity, hne, h2']
      | some d =>
        by_cases h3 : d.doRaw = toL "upstream"
        · simp [BuiltHandler.isIdentity, hne, h2', h3]
        · simp [BuiltHandler.isIdentity, hne, h2', h3]
    · rw [if_neg h2]
      have h2' : nonDefaultRules rules ≠ [] := fun hc => h2 (by simp [hc])
      simp [BuiltHandler.isIdentity, hne, h2']

theorem commandParse_eq_filter {σ : Type} (executors : List (CommandHandler σ)) :
    commandParse executors =
      (executors.filter (fun e => !(CommandHandler.phase e).isPostRule),
       executors.filter (fun e => (CommandHandler.phase e).isPostRule)) := by
  have key : ∀ (l : List (CommandHandler σ)) (pa po : List (CommandHandler σ)),
      l.foldl (fun acc e =>
        if (CommandHandler.phase e).isPostRule then (acc.1, acc.2 ++ [e])
        else (acc.1 ++ [e], acc.2)) (pa, po) =
      (pa ++ l.filter (fun e => !(CommandHandler.phase e).isPostRule),
       po ++ l.filter (fun e => (CommandHandler.phase e).isPostRule)) := by
    intro l
    induction l with
    | nil =>
      intro pa po
      simp
    | cons c rest ih =>
      intro pa po
      by_cases hc : (CommandHandler.phase c).isPostRule
      · simp [List.foldl_cons, List.filter_cons, hc, ih]
      · simp [List.foldl_cons, List.filter_cons, hc, ih]
  rw [commandParse, key]
  simp

/-- C4: `Command.Parse` places every parsed handler in exactly one of the
two lists: a handler is in the post list iff its `Phase()` has the Post
bit, in the pre list iff it does not, and the two lists together account
for all parsed handlers. -/
theorem commandParse_partition {σ : Type} (executors : List (CommandHandler σ)) :
    (∀ e, e ∈ (commandParse executors).2 ↔
      e ∈ executors ∧ (CommandHandler.phase e).isPostRule = true) ∧
    (∀ e, e ∈ (commandParse executors).1 ↔
      e ∈ executors ∧ (CommandHandler.phase e).isPostRule = false) ∧
    (commandParse executors).1.length + (commandParse executors).2.length =
      executors.length := by
  rw [commandParse_eq_filter]
  refine ⟨?_, ?_, ?_⟩
  · intro e
    simp [List.mem_filter]
  · intro e
    simp [List.mem_filter]
  · have hlen : ∀ (l : List (CommandHandler σ)),
        (l.filter (fun e => !(CommandHandler.phase e).isPostRule)).length +
        (l.filter (fun e => (CommandHandler.phase e).isPostRule)).length = l.length := by
      intro l
      induction l with
      | nil => simp
      | cons c rest ih =>
        by_cases hc : (CommandHandler.phase c).isPostRule <;>
          simp [List.filter_cons, hc] <;> omega
    exact hlen executors

theorem renameOne_On {σ : Type} (i : Nat) (r : Rule σ) : (renameOne i r).On = r.On := by
  rw [renameOne]
  split_ifs <;> rfl

theorem renameOne_pre {σ : Type} (i : Nat) (r : Rule σ) : (renameOne i r).pre = r.pre := by
  rw [renameOne]
  split_ifs <;> rfl

theorem autoRuleName_ne_default (i : Nat) : autoRuleName i ≠ toL "default" := by
  intro hc
  rw [autoRuleName, show toL "default" = ['d', 'e', 'f', 'a', 'u', 'l', 't'] from rfl] at hc
  injection hc with h1 _
  exact absurd h1 (by decide)

theorem isDefaultRule_renameOne {σ : Type} (i : Nat) (r : Rule σ) :
    isDefaultRule (renameOne i r) = isDefaultRule r := by
  rw [renameOne]
  split_ifs with h
  · simp [isDefaultRule, h, autoRuleName_ne_default i,
      (show ¬(([] : Str) = toL "default") by decide)]
  · rfl

theorem doesTerminateInPre_renameOne {σ : Type} (i : Nat) (r : Rule σ) :
    (renameOne i r).doesTerminateInPre = r.doesTerminateInPre := by
  rw [Rule.doesTerminateInPre, Rule.doesTerminateInPre, renameOne_pre]

theorem findDeadInner_rename {σ : Type} (lookup : Str → Option Str) (sig1 : Bytes) :
    ∀ (l : List (Rule σ)) (i0 j : Nat),
    findDeadInner lookup sig1 (renameRules l i0) j = findDeadInner lookup sig1 l j := by
  intro l
  induction l with
  | nil =>
    intro i0 j
    rfl
  | cons r rest ih =>
    intro i0 j
    rw [renameRules]
    simp only [findDeadInner]
    rw [isDefaultRule_renameOne, renameOne_On]
    split_ifs with hc
    · exact ih (i0 + 1) (j + 1)
    · cases hm : matcherSignature lookup r.On.raw with
      | none => rfl
      | some o =>
        cases o with
        | none => exact ih (i0 + 1) (j + 1)
        | some sig2 =>
          show (if sig2 = sig1 then some (some j)
              else findDeadInner lookup sig1 (renameRules rest (i0 + 1)) (j + 1)) =
            if sig2 = sig1 then some (some j) else findDeadInner lookup sig1 rest (j + 1)
          rw [ih (i0 + 1) (j + 1)]

theorem findDeadOuter_rename {σ : Type} (lookup : Str → Option Str) :
    ∀ (l : List (Rule σ)) (i0 i : Nat),
    findDeadOuter lookup (renameRules l i0) i = findDeadOuter lookup l i := by
  intro l
  induction l with
  | nil =>
    intro i0 i
    rfl
  | cons r rest ih =>
    intro i0 i
    rw [renameRules]
    simp only [findDeadOuter]
    rw [isDefaultRule_renameOne, renameOne_On, doesTerminateInPre_renameOne]
    split_ifs with hc
    · exact ih (i0 + 1) (i + 1)
    · cases hm : matcherSignature lookup r.On.raw with
      | none => rfl
      | some o =>
        cases o with
        | none => exact ih (i0 + 1) (i + 1)
        | some sig1 =>
          show (match findDeadInner lookup sig1 (renameRules rest (i0 + 1)) (i + 1) with
              | none => none
              | some (some j) => some (some (i, j))
              | some none => findDeadOuter lookup (renameRules rest (i0 + 1)) (i + 1)) =
            match findDeadInner lookup sig1 rest (i + 1) with
              | none => none
              | some (some j) => some (some (i, j))
              | some none => findDeadOuter lookup rest (i + 1)
          rw [findDeadInner_rename lookup sig1 rest (i0 + 1) (i + 1)]
          cases hi : findDeadInner lookup sig1 rest (i + 1) with
          | none => rfl
          | some oi =>
            cases oi with
            | some j2 => rfl
            | none => exact ih (i0 + 1) (i + 1)

theorem findDeadInner_sound {σ : Type} (lookup : Str → Option Str) (sig1 : Bytes) :
    ∀ (l : List (Rule σ)) (jstart j : Nat),
    findDeadInner lookup sig1 l jstart = some (some j) →
    ∃ k r2, j = jstart + k ∧ l[k]? = some r2 ∧
      isDefaultRule r2 = false ∧ r2.On.phase.isPostRule = false ∧
      matcherSignature lookup r2.On.raw = some (some sig1) := by
  intro l
  induction l with
  | nil =>
    intro jstart j h
    simp [findDeadInner] at h
  | cons r rest ih =>
    intro jstart j h
    simp only [findDeadInner] at h
    split_ifs at h with hc
    · obtain ⟨k, r2, hj, hget, h1, h2, h3⟩ := ih (jstart + 1) j h
      exact ⟨k + 1, r2, by omega, by simpa using hget, h1, h2, h3⟩
    · simp only [Bool.or_eq_true, not_or, Bool.not_eq_true] at hc
      cases hm : matcherSignature lookup r.On.raw with
      | none =>
        rw [hm] at h
        simp at h
      | some o =>
        cases o with
        | none =>
          rw [hm] at h
          obtain ⟨k, r2, hj, hget, h1, h2, h3⟩ := ih (jstart + 1) j h
          exact ⟨k + 1, r2, by omega, by simpa using hget, h1, h2, h3⟩
        | some sig2 =>
          rw [hm] at h
          have h9 : (if sig2 = sig1 then some (some jstart)
              else findDeadInner lookup sig1 rest (jstart + 1)) = some (some j) := h
          split_ifs at h9 with hs
          · have hj : jstart = j := by simpa using h9
            exact ⟨0, r, by omega, by simp, hc.1, hc.2, by rw [hm, hs]⟩
          · obtain ⟨k, r2, hj, hget, h1, h2, h3⟩ := ih (jstart + 1) j h9
            exact ⟨k + 1, r2, by omega, by simpa using hget, h1, h2, h3⟩

theorem findDeadInner_complete {σ : Type} (lookup : Str → Option Str) (sig1 : Bytes) :
    ∀ (l : List (Rule σ)) (jstart k : Nat) (r2 : Rule σ),
    l[k]? = some r2 → isDefaultRule r2 = false → r2.On.phase.isPostRule = false →
    matcherSignature lookup r2.On.raw = some (some sig1) →
    (∀ r ∈ l, matcherSignature lookup r.On.raw ≠ none) →
    ∃ j, findDeadInner lookup sig1 l jstart = some (some j) := by
  intro l
  induction l with
  | nil =>
    intro jstart k r2 hget _ _ _ _
    simp at hget
  | cons r rest ih =>
    intro jstart k r2 hget hd hp hs hnp
    by_cases hc : (isDefaultRule r || r.On.phase.isPostRule) = true
    · have hstep : findDeadInner lookup sig1 (r :: rest) jstart =
          findDeadInner lookup sig1 rest (jstart + 1) := by
        simp only [findDeadInner]
        rw [if_pos hc]
      rw [hstep]
      cases k with
      | zero =>
        simp at hget
        subst hget
        simp [hd, hp] at hc
      | succ k2 =>
        simp at hget
        exact ih (jstart + 1) k2 r2 hget hd hp hs
          (fun x hx => hnp x (List.mem_cons_of_mem r hx))
    · cases hm : matcherSignature lookup r.On.raw with
      | none => exact absurd hm (hnp r (List.mem_cons_self r rest))
      | some o =>
        cases o with
        | none =>
          have hstep : findDeadInner lookup sig1 (r :: rest) jstart =
              findDeadInner lookup sig1 rest (jstart + 1) := by
            simp only [findDeadInner]
            rw [if_neg hc, hm]
          rw [hstep]
          cases k with
          | zero =>
            simp at hget
            subst hget
            rw [hm] at hs
            simp at hs
          | succ k2 =>
            simp at hget
            exact ih (jstart + 1) k2 r2 hget hd hp hs
              (fun x hx => hnp x (List.mem_cons_of_mem r hx))
        | some sig2 =>
          by_cases hs2 : sig2 = sig1
          · refine ⟨jstart, ?_⟩
            simp only [findDeadInner]
            rw [if_neg hc, hm]
            show (if sig2 = sig1 then some (some jstart)
                else findDeadInner lookup sig1 rest (jstart + 1)) = some (some jstart)
            rw [if_pos hs2]
          · have hstep : findDeadInner lookup sig1 (r :: rest) jstart =
                findDeadInner lookup sig1 rest (jstart + 1) := by
              simp only [findDeadInner]
              rw [if_neg hc, hm]
              show (if sig2 = sig1 then some (some jstart)
                  else findDeadInner lookup sig1 rest (jstart + 1)) =
                findDeadInner lookup sig1 rest (jstart + 1)
              rw [if_neg hs2]
            rw [hstep]
            cases k with
            | zero =>
              simp at hget
              subst hget
              rw [hm] at hs
              simp at hs
              exact absurd hs hs2
            | succ k2 =>
              simp at hget
              exact ih (jstart + 1) k2 r2 hget hd hp hs
                (fun x hx => hnp x (List.mem_cons_of_mem r hx))

theorem findDeadInner_nopanic {σ : Type} (lookup : Str → Option Str) (sig1 : Bytes) :
    ∀ (l : List (Rule σ)) (jstart : Nat),
    (∀ r ∈ l, matcherSignature lookup r.On.raw ≠ none) →
    findDeadInner lookup sig1 l jstart ≠ none := by
  intro l
  induction l with
  | nil =>
    intro jstart _
    simp [findDeadInner]
  | cons r rest ih =>
    intro jstart hnp
    simp only [findDeadInner]
    split_ifs with hc
    · exact ih (jstart + 1) (fun x hx => hnp x (List.mem_cons_of_mem r hx))
    · cases hm : matcherSignature lookup r.On.raw with
      | none => exact absurd hm (hnp r (List.mem_cons_self r rest))
      | some o =>
        cases o with
        | none => exact ih (jstart + 1) (fun x hx => hnp x (List.mem_cons_of_mem r hx))
        | some sig2 =>
          show (if sig2 = sig1 then some (some jstart)
              else findDeadInner lookup sig1 rest (jstart + 1)) ≠ none
          split_ifs with hs
          · simp
          · exact ih (jstart + 1) (fun x hx => hnp x (List.mem_cons_of_mem r hx))

theorem findDeadOuter_sound {σ : Type} (lookup : Str → Option Str) :
    ∀ (l : List (Rule σ)) (istart i j : Nat),
    findDeadOuter lookup l istart = some (some (i, j)) →
    ∃ a r1, i = istart + a ∧ l[a]? = some r1 ∧
      isDefaultRule r1 = false ∧ r1.On.phase.isPostRule = false ∧
      r1.doesTerminateInPre = true ∧
      ∃ sig b r2, j = i + 1 + b ∧ l[a + 1 + b]? = some r2 ∧
        isDefaultRule r2 = false ∧ r2.On.phase.isPostRule = false ∧
        matcherSignature lookup r1.On.raw = some (some sig) ∧
        matcherSignature lookup r2.On.raw = some (some sig) := by
  intro l
  induction l with
  | nil =>
    intro istart i j h
    simp [findDeadOuter] at h
  | cons r rest ih =>
    intro istart i j h
    simp only [findDeadOuter] at h
    split_ifs at h with hc
    · obtain ⟨a, r1, hi, hget, h1, h2, h3, sig, b, r2, hj, hget2, h4, h5, h6, h7⟩ :=
        ih (istart + 1) i j h
      refine ⟨a + 1, r1, by omega, by simpa using hget, h1, h2, h3,
        sig, b, r2, hj, ?_, h4, h5, h6, h7⟩
      rw [show a + 1 + 1 + b = (a + 1 + b) + 1 from by omega]
      simpa using hget2
    · simp only [Bool.or_eq_true, not_or, Bool.not_eq_true] at hc
      obtain ⟨⟨hd1, hp1⟩, ht1⟩ := hc
      rw [Bool.not_eq_false'] at ht1
      cases hm : matcherSignature lookup r.On.raw with
      | none =>
        rw [hm] at h
        simp at h
      | some o =>
        cases o with
        | none =>
          rw [hm] at h
          obtain ⟨a, r1, hi, hget, h1, h2, h3, sig, b, r2, hj, hget2, h4, h5, h6, h7⟩ :=
            ih (istart + 1) i j h
          refine ⟨a + 1, r1, by omega, by simpa using hget, h1, h2, h3,
            sig, b, r2, hj, ?_, h4, h5, h6, h7⟩
          rw [show a + 1 + 1 + b = (a + 1 + b) + 1 from by omega]
          simpa using hget2
        | some sig1 =>
          rw [hm] at h
          have h9 : (match findDeadInner lookup sig1 rest (istart + 1) with
              | none => none
              | some (some j2) => some (some (istart, j2))
              | some none => findDeadOuter lookup rest (istart + 1)) =
              some (some (i, j)) := h
          cases hi2 : findDeadInner lookup sig1 rest (istart + 1) with
          | none =>
            rw [hi2] at h9
            simp at h9
          | some oi =>
            cases oi with
            | some j2 =>
              rw [hi2] at h9
              simp at h9
              obtain ⟨hii, hjj⟩ := h9
              subst hii
              subst hjj
              obtain ⟨k, r2, hjk, hget2, h4, h5, h6⟩ :=
                findDeadInner_sound lookup sig1 rest (istart + 1) j2 hi2
              refine ⟨0, r, by omega, by simp, hd1, hp1, ht1,
                sig1, k, r2, by omega, ?_, h4, h5, hm, h6⟩
              rw [show 0 + 1 + k = k + 1 from by omega]
              simpa using hget2
            | none =>
              rw [hi2] at h9
              obtain ⟨a, r1, hi, hget, h1, h2, h3, sig, b, r2, hj, hget2, h4, h5, h6, h7⟩ :=
                ih (istart + 1) i j h9
              refine ⟨a + 1, r1, by omega, by simpa using hget, h1, h2, h3,
                sig, b, r2, hj, ?_, h4, h5, h6, h7⟩
              rw [show a + 1 + 1 + b = (a + 1 + b) + 1 from by omega]
              simpa using hget2

theorem findDeadOuter_complete {σ : Type} (lookup : Str → Option Str) :
    ∀ (l : List (Rule σ)) (istart a b : Nat) (r1 r2 : Rule σ) (sig : Bytes),
    l[a]? = some r1 → l[b]? = some r2 → a < b →
    isDefaultRule r1 = false → r1.On.phase.isPostRule = false →
    r1.doesTerminateInPre = true →
    isDefaultRule r2 = false → r2.On.phase.isPostRule = false →
    matcherSignature lookup r1.On.raw = some (some sig) →
    matcherSignature lookup r2.On.raw = some (some sig) →
    (∀ r ∈ l, matcherSignature lookup r.On.raw ≠ none) →
    ∃ i j, findDeadOuter lookup l istart = some (some (i, j)) := by
  intro l
  induction l with
  | nil =>
    intro istart a b r1 r2 sig hga _ _ _ _ _ _ _ _ _ _
    simp at hga
  | cons r rest ih =>
    intro istart a b r1 r2 sig hga hgb hab hd1 hp1 ht1 hd2 hp2 hs1 hs2 hnp
    by_cases hc : (isDefaultRule r || r.On.phase.isPostRule || !r.doesTerminateInPre) = true
    · have hstep : findDeadOuter lookup (r :: rest) istart =
          findDeadOuter lookup rest (istart + 1) := by
        simp only [findDeadOuter]
        rw [if_pos hc]
      rw [hstep]
      cases a with
      | zero =>
        simp at hga
        subst hga
        simp [hd1, hp1, ht1] at hc
      | succ a2 =>
        cases b with
        | zero => omega
        | succ b2 =>
          simp at hga hgb
          exact ih (istart + 1) a2 b2 r1 r2 sig hga hgb (by omega) hd1 hp1 ht1 hd2 hp2 hs1
            hs2 (fun x hx => hnp x (List.mem_cons_of_mem r hx))
    · cases hm : matcherSignature lookup r.On.raw with
      | none => exact absurd hm (hnp r (List.mem_cons_self r rest))
      | some o =>
        cases o with
        | none =>
          have hstep : findDeadOuter lookup (r :: rest) istart =
              findDeadOuter lookup rest (istart + 1) := by
            simp only [findDeadOuter]
            rw [if_neg hc, hm]
          rw [hstep]
          cases a with
          | zero =>
            simp at hga
            subst hga
            rw [hm] at hs1
            simp at hs1
          | succ a2 =>
            cases b with
            | zero => omega
            | succ b2 =>
              simp at hga hgb
              exact ih (istart + 1) a2 b2 r1 r2 sig hga hgb (by omega) hd1 hp1 ht1 hd2 hp2
                hs1 hs2 (fun x hx => hnp x (List.mem_cons_of_mem r hx))
        | some sig1 =>
          cases hi : findDeadInner lookup sig1 rest (istart + 1) with
          | none =>
            exact absurd hi (findDeadInner_nopanic lookup sig1 rest (istart + 1)
              (fun x hx => hnp x (List.mem_cons_of_mem r hx)))
          | some oi =>
            cases oi with
            | some j2 =>
              refine ⟨istart, j2, ?_⟩
              simp only [findDeadOuter]
              rw [if_neg hc, hm]
              show (match findDeadInner lookup sig1 rest (istart + 1) with
                  | none => none
                  | some (some j) => some (some (istart, j))
                  | some none => findDeadOuter lookup rest (istart + 1)) =
                some (some (istart, j2))
              rw [hi]
            | none =>
              have hstep : findDeadOuter lookup (r :: rest) istart =
                  findDeadOuter lookup rest (istart + 1) := by
                simp only [findDeadOuter]
                rw [if_neg hc, hm]
                show (match findDeadInner lookup sig1 rest (istart + 1) with
                    | none => none
                    | some (some j) => some (some (istart, j))
                    | some none => findDeadOuter lookup rest (istart + 1)) =
                  findDeadOuter lookup rest (istart + 1)
                rw [hi]
              rw [hstep]
              cases a with
              | zero =>
                simp at hga
                subst hga
                rw [hm] at hs1
                simp at hs1
                subst hs1
                cases b with
                | zero => omega
                | succ b2 =>
                  simp at hgb
                  obtain ⟨j3, hj3⟩ := findDeadInner_complete lookup sig1 rest (istart + 1)
                    b2 r2 hgb hd2 hp2 hs2 (fun x hx => hnp x (List.mem_cons_of_mem r hx))
                  rw [hi] at hj3
                  simp at hj3
              | succ a2 =>
                cases b with
                | zero => omega
                | succ b2 =>
                  simp at hga hgb
                  exact ih (istart + 1) a2 b2 r1 r2 sig hga hgb (by omega) hd1 hp1 ht1 hd2
                    hp2 hs1 hs2 (fun x hx => hnp x (List.mem_cons_of_mem r hx))

/-- C3 (amended): `Rules.Validate` returns the dead-rule error iff rules
`i < j` exist that are non-default, not post-phase, have the same canonical
matcher signature and rule `i` terminates in pre — provided at most one
default rule exists (multiple defaults short-circuit with a different
error first) and no rule's matcher triggers the out-of-range index panic
in the parser's 256-entry quote table (an unescaped rune at or above
U+0100 when the full parser runs); the forward direction holds without
these side conditions. -/
theorem validate_deadRule_iff {σ : Type} (lookup : Str → Option Str)
    (rules : List (Rule σ)) :
    ((∃ i j, rulesValidate lookup rules = ValidateOut.errDeadRule i j) →
      ∃ i j, deadPairAt lookup rules i j) ∧
    ((rules.filter (fun r => isDefaultRule r)).length ≤ 1 →
      (∀ r ∈ rules, matcherSignature lookup r.On.raw ≠ none) →
      (∃ i j, deadPairAt lookup rules i j) →
      ∃ i j, rulesValidate lookup rules = ValidateOut.errDeadRule i j) := by
  constructor
  · rintro ⟨i, j, h⟩
    rw [rulesValidate] at h
    split_ifs at h with hgt
    rw [findDeadOuter_rename lookup rules 0 0] at h
    cases ho : findDeadOuter lookup rules 0 with
    | none =>
      rw [ho] at h
      simp at h
    | some o =>
      cases o with
      | none =>
        rw [ho] at h
        simp at h
      | some p =>
        obtain ⟨i2, j2⟩ := p
        rw [ho] at h
        simp at h
        obtain ⟨hii, hjj⟩ := h
        subst hii
        subst hjj
        obtain ⟨a, r1, hia, hget1, h1, h2, h3, sig, b, r2, hjb, hget2, h4, h5, h6, h7⟩ :=
          findDeadOuter_sound lookup rules 0 i2 j2 ho
        refine ⟨i2, j2, by omega, r1, r2, ?_, ?_, h1, h2, h3, h4, h5, sig, h6, h7⟩
        · rw [show i2 = a from by omega]
          exact hget1
        · rw [show j2 = a + 1 + b from by omega]
          exact hget2
  · rintro hdef hnp ⟨i, j, hlt, r1, r2, hg1, hg2, h1, h2, h3, h4, h5, sig, h6, h7⟩
    obtain ⟨i2, j2, hfound⟩ := findDeadOuter_complete lookup rules 0 i j r1 r2 sig hg1 hg2
      hlt h1 h2 h3 h4 h5 h6 h7 hnp
    refine ⟨i2, j2, ?_⟩
    rw [rulesValidate, if_neg (by omega), findDeadOuter_rename lookup rules 0 0, hfound]

/-- C3 (witness): the shadowed pair on `path /a` is reported. -/
theorem validate_deadRule_iff_witness :
    ∃ i j, rulesValidate (fun _ => none) c3Rules = ValidateOut.errDeadRule i j :=
  (validate_deadRule_iff (fun _ => none) c3Rules).2 (by decide)
    (by
      intro r hr
      simp [c3Rules] at hr
      rcases hr with rfl | rfl <;> decide)
    ⟨0, 1, by omega, c3RuleA, c3RuleB, rfl, rfl, by decide, by decide, by decide, by decide,
      by decide, strBytes (toL "(path /a)"), by decide, by decide⟩

/-- C3 (counterexample): with two default rules present, the dead pair on
`path /a` exists but `Validate` reports the multiple-defaults error, not
the dead-rule error, so the claimed equivalence fails as stated. -/
theorem validate_deadRule_counterexample :
    (∃ i j, deadPairAt (fun _ => none) c3BadRules i j) ∧
    ∀ i j, rulesValidate (fun _ => none) c3BadRules ≠ ValidateOut.errDeadRule i j := by
  constructor
  · exact ⟨0, 1, by omega, c3RuleA, c3RuleB, rfl, rfl, by decide, by decide, by decide,
      by decide, by decide, strBytes (toL "(path /a)"), by decide, by decide⟩
  · intro i j h
    have hv : rulesValidate (fun _ => none) c3BadRules = ValidateOut.errMultipleDefaults 2 :=
      by decide
    rw [hv] at h
    exact ValidateOut.noConfusion h

/-- C7 (counterexample): the split-concatenation law fails as stated.  With
`a = "x" ++ U+00A0` (non-breaking space) and `b = "y"`, the interior segment
keeps the non-ASCII space (the loop trims with the ASCII table only) while
`splitAnd a` trims it with `strings.TrimSpace` (Unicode). -/
theorem splitAnd_append_counterexample :
    splitAnd (['x', Char.ofNat 0xA0] ++ '&' :: ['y']) ≠
      splitAnd ['x', Char.ofNat 0xA0] ++ splitAnd ['y'] := by
  decide

/-- C7 (amended): `splitAnd (a ++ "&" ++ b) = splitAnd a ++ splitAnd b`
holds whenever every Unicode white-space character of `a` is ASCII
white space, so that the Unicode trim of `a`'s final segment agrees with
the ASCII trim applied once it becomes an interior segment. -/
theorem splitAnd_append (a b : Str)
    (h : ∀ c ∈ a, goIsSpace c = true → isAsciiSpace c = true) :
    splitAnd (a ++ '&' :: b) = splitAnd a ++ splitAnd b := by
  rw [splitAnd_eq_spec, splitAnd_eq_spec, splitAnd_eq_spec]
  exact splitAndSpec_append b a h

/-- C7 (witness): the amended law evaluated at `a = " p "`, `b = " q|r "`. -/
theorem splitAnd_append_witness :
    splitAnd (toL " p " ++ '&' :: toL " q|r ") =
      splitAnd (toL " p ") ++ splitAnd (toL " q|r ") :=
  splitAnd_append (toL " p ") (toL " q|r ") (by decide)

/-- C8 (counterexample): idempotence fails as stated.  For `s = "$$$$"`
(no `$${` sequence, no env reference at all, nothing substituted) the first
expansion yields `"$$"` and the second collapses it further to `"$"`. -/
theorem expandEnvVarsRaw_idempotent_counterexample :
    hasTriple dollar dollar lbrace (toL "$$$$") = false ∧
    (expandEnvVarsRaw (fun _ => none) (toL "$$$$")).2.1 = [] ∧
    (expandEnvVarsRaw (fun _ => none)
        ((expandEnvVarsRaw (fun _ => none) (toL "$$$$")).1)).1 ≠
      (expandEnvVarsRaw (fun _ => none) (toL "$$$$")).1 := by
  decide

/-- C8 (amended): env expansion is idempotent on every string whose first
expansion output contains neither a `${` nor a `$$` two-character sequence
(the `$$` escape halves on each pass, so it must be excluded along with
new `${` occurrences). -/
theorem expandEnvVarsRaw_idempotent (lookup : Str → Option Str) (s : Str)
    (h1 : hasPair dollar lbrace (expandEnvVarsRaw lookup s).1 = false)
    (h2 : hasPair dollar dollar (expandEnvVarsRaw lookup s).1 = false) :
    (expandEnvVarsRaw lookup (expandEnvVarsRaw lookup s).1).1 =
      (expandEnvVarsRaw lookup s).1 := by
  rw [expandEnvVarsRaw_fixed lookup _ h1 h2]

/-- C8 (witness): the amended idempotence law evaluated at `s = "a$x-${"`
with an environment mapping every name to `"v"`. -/
theorem expandEnvVarsRaw_idempotent_witness :
    (expandEnvVarsRaw (fun _ => some (toL "v"))
        ((expandEnvVarsRaw (fun _ => some (toL "v")) (toL "a$x")).1)).1 =
      (expandEnvVarsRaw (fun _ => some (toL "v")) (toL "a$x")).1 :=
  expandEnvVarsRaw_idempotent (fun _ => some (toL "v")) (toL "a$x") (by decide) (by decide)

/-- C5: the rewrite command replaces the `orig` prefix of the
slash-normalised path by `repl`, clears `RawPath` and `RequestURI`, keeps
the query string; on a prefix mismatch the request is entirely unchanged. -/
theorem commandRewrite_spec (orig repl : Str) (r : GoRequest) :
    (commandRewrite orig repl r).rawQuery = r.rawQuery ∧
    (orig.isPrefixOf (withLeadingSlash r.path) = true →
      commandRewrite orig repl r =
        ⟨repl ++ (withLeadingSlash r.path).drop orig.length, [], r.rawQuery, []⟩) ∧
    (orig.isPrefixOf (withLeadingSlash r.path) = false →
      commandRewrite orig repl r = r) := by
  refine ⟨?_, ?_, ?_⟩
  · rw [commandRewrite]
    by_cases hp : orig.isPrefixOf (withLeadingSlash r.path) = true
    · simp [hp]
    · simp at hp
      simp [hp]
  · intro hp
    rw [commandRewrite]
    simp [hp]
  · intro hp
    rw [commandRewrite]
    simp [hp]

/-- C5 (witness): `rewrite /a /b` on path `/axyz` with query
`foo=1&bar=2` yields path `/bxyz` with the query preserved and `RawPath`,
`RequestURI` cleared. -/
theorem commandRewrite_spec_witness :
    commandRewrite (toL "/a") (toL "/b")
        ⟨toL "/axyz", toL "/raw", toL "foo=1&bar=2", toL "/axyz?foo=1&bar=2"⟩ =
      ⟨toL "/bxyz", [], toL "foo=1&bar=2", []⟩ := by
  have h := (commandRewrite_spec (toL "/a") (toL "/b")
    ⟨toL "/axyz", toL "/raw", toL "foo=1&bar=2", toL "/axyz?foo=1&bar=2"⟩).2.1 (by decide)
  rw [h]
  decide

/-- C6: the `header k [v]` matcher and the `$header(k)` variable consult
only the map entry stored under exactly the key `k`; an entry under any
other key (in particular a differently-cased one) is invisible to them. -/
theorem header_lookup_exact_key (k k' : Str) (hk : k' ≠ k) (vs : List Str)
    (hdrs : List (Str × List Str)) (matcher : Option (Str → Bool))
    (sf : Str → Str) (idx : Int) :
    onHeaderCheck k matcher ((k', vs) :: hdrs) = onHeaderCheck k matcher hdrs ∧
    getValueByKeyAtIndex sf ((k', vs) :: hdrs) k idx =
      getValueByKeyAtIndex sf hdrs k idx := by
  have hm : goMapGet ((k', vs) :: hdrs) k = goMapGet hdrs k := by
    simp [goMapGet, hk]
  constructor
  · simp only [onHeaderCheck, hm]
  · simp only [getValueByKeyAtIndex, hm]

/-- C6 (witness): a header stored under `X-Test` is not observed by a
matcher or variable written with the key `x-test`. -/
theorem header_lookup_exact_key_witness :
    onHeaderCheck (toL "x-test") none [(toL "X-Test", [toL "1"])] =
      onHeaderCheck (toL "x-test") none [] ∧
    getValueByKeyAtIndex id [(toL "X-Test", [toL "1"])] (toL "x-test") 0 =
      getValueByKeyAtIndex id [] (toL "x-test") 0 :=
  header_lookup_exact_key (toL "x-test") (toL "X-Test") (by decide)
    [toL "1"] [] none id 0

/-- C10: the dynamic-variable lookup returns the empty string with no
error when the key is absent or the index is at least the value count;
the guard only checks `index < len(values)`, so the access is in bounds
only when additionally `0 ≤ index`, and a negative index (which
`getKeyAndIndex` can produce from a second argument such as `"-1"`) makes
the guarded slice access panic. -/
theorem getValueByKeyAtIndex_bounds (sf : Str → Str)
    (values : List (Str × List Str)) (key : Str) (idx : Int) :
    (goMapGet values key = none → getValueByKeyAtIndex sf values key idx = some []) ∧
    (∀ vs, goMapGet values key = some vs → (vs.length : Int) ≤ idx →
      getValueByKeyAtIndex sf values key idx = some []) ∧
    (∀ vs, goMapGet values key = some vs → idx < (vs.length : Int) → idx < 0 →
      getValueByKeyAtIndex sf values key idx = none) ∧
    (∀ vs, goMapGet values key = some vs → 0 ≤ idx → idx < (vs.length : Int) →
      getValueByKeyAtIndex sf values key idx = some (sf (vs.getD idx.toNat []))) ∧
    (∀ a0 : Str, getKeyAndIndex [a0, toL "-1"] = .ok (a0, -1)) := by
  refine ⟨?_, ?_, ?_, ?_, ?_⟩
  · intro h
    rw [getValueByKeyAtIndex, h]
  · intro vs h hle
    rw [getValueByKeyAtIndex, h]
    dsimp only
    rw [if_neg (by omega)]
  · intro vs h hlt hneg
    rw [getValueByKeyAtIndex, h]
    dsimp only
    rw [if_pos hlt]
    match idx with
    | Int.ofNat nIdx =>
      rw [Int.ofNat_eq_natCast] at hneg
      omega
    | Int.negSucc m => rfl
  · intro vs h h0 hlt
    rw [getValueByKeyAtIndex, h]
    dsimp only
    rw [if_pos hlt]
    match idx with
    | Int.ofNat nIdx => rfl
    | Int.negSucc m => exact absurd h0 (by simp)
  · intro a0
    have hv : goAtoi (toL "-1") = some (-1) := by decide
    show (match goAtoi (toL "-1") with
      | none => Except.error ArgErr.invalidArguments
      | some idx => Except.ok (a0, idx)) = Except.ok (a0, -1)
    rw [hv]

/-- C10 (witness): with a present key and a single value, index `-1`
passes the `index < len` guard yet denotes an out-of-bounds access. -/
theorem getValueByKeyAtIndex_bounds_witness :
    getValueByKeyAtIndex id [(toL "k", [toL "v"])] (toL "k") (-1) = none :=
  (getValueByKeyAtIndex_bounds id [(toL "k", [toL "v"])] (toL "k") (-1)).2.2.1
    [toL "v"] (by decide) (by decide) (by decide)

end GoDoxy
